import Mathlib

/-!
Verification of the transaction wrapper in sqlite3-transactions.js.

The library wraps a serialized sqlite3 connection.  Its state is the lock
counter `_lock`, the pending queue `queue`, the active-transaction reference
`currentTransaction`, and per-transaction `finished` closure flags; its
operations are the wrapped database methods (`wrapDbMethod`), the wait gate
(`_wait`), the queue drain (`_runQueue`), `beginTransaction`, and the
`commit` / `rollback` closures installed on the shared db object.

We embed the library as a small-step event-loop semantics.  Each step is one
synchronous JavaScript execution block: a caller invoking an API entry point,
a pending `setTimeout` check of the wait gate firing, or the connection
reporting completion of an asynchronous call.  Since the connection is
serialized (`this.db.serialize()`), in-flight statement executions complete
in FIFO order; transactions are identified by a generation number `g`
(the JS objects are closures over one shared db handle, so generations stand
for the successive `beginTransaction` closure instances).  A trace of
observable events - statements issued, callbacks invoked, queue activity -
is recorded in the state.
-/

namespace STx

/-- Transaction boundary statements issued through `self._exec`. -/
inductive Stmt
  | sBegin
  | sCommit
  | sRollback
deriving DecidableEq, Repr

/-- Errors: an error reported by the connection (indexed so distinct errors
are distinguishable), or the "Transaction is already finished" error made by
`commit` / `rollback` when the `finished` flag is set. -/
inductive Err
  | db (n : Nat)
  | alreadyFinished
deriving DecidableEq, Repr

/-- Pending-queue items (source lines 139-144 and 222-228): a locking
operation (with its hijacked callback; `hasCb` records whether the caller
supplied one), a non-locking operation, or a deferred `beginTransaction`. -/
inductive QItem
  | lock (hasCb : Bool)
  | simple
  | txn
deriving DecidableEq, Repr

/-- The two objects of interest: the wrapping facade (the
`TransactionDatabase` instance) and the raw wrapped database handle. -/
inductive Obj
  | facade
  | db
deriving DecidableEq, Repr

/-- The callback a `finishTransaction` call will invoke, abstracted by
origin: the `beginTransaction` callback (err branch of the BEGIN wait),
the commit callback on success, the wrapper installed by a failed COMMIT
(which ignores the rollback outcome and reports the original commit error
`e`), or the rollback callback. -/
inductive FinishCb
  | beginCb (g : Nat)
  | commitCb (g : Nat)
  | commitErrCb (g : Nat) (e : Err)
  | rollbackCb (g : Nat)
deriving DecidableEq, Repr

/-- Continuations handed to the wait gate `_wait` (source 160-169): the
bodies at lines 268-274 (BEGIN), 246-254 (COMMIT), 259-264 (ROLLBACK). -/
inductive WaitCont
  | wBegin (g : Nat)
  | wCommit (g : Nat)
  | wRollback (g : Nat) (k : FinishCb)
deriving DecidableEq, Repr

/-- Continuations of in-flight `_exec` calls. -/
inductive ExecCont
  | beginCont (g : Nat)
  | commitCont (g : Nat)
  | rollbackCont (g : Nat) (k : FinishCb)
deriving DecidableEq, Repr

/-- Observable events recorded in the trace. -/
inductive Ev
  /-- `self._exec(stmt, ...)` called for generation `g`; `lockAt` is the
  value of `_lock` at the moment of issuance. -/
  | issued (st : Stmt) (g : Nat) (lockAt : Nat)
  /-- the idle path of `beginTransaction` ran: `var tr = self.db;
  self.currentTransaction = tr` - `h` is the object used as handle. -/
  | own (g : Nat) (h : Obj)
  /-- an operation was appended to the pending queue. -/
  | enqueued (k : QItem)
  /-- a wrapped facade method dispatched directly (no active transaction). -/
  | opDispatched (locking : Bool) (hasCb : Bool)
  /-- a raw db-handle method (the transaction handle surface) dispatched. -/
  | rawDispatched
  /-- `_runQueue` dispatched a queued item. -/
  | dispatched (k : QItem)
  /-- `newCallback` decremented the lock counter. -/
  | lockDec
  /-- the "Locks are not ballanced" exception was thrown. -/
  | fatalImbalance
  /-- a caller-supplied completion callback of a locking op ran. -/
  | userOpCb (res : Option Err)
  /-- the synthesized completion callback forwarded an error to the
  connection error channel: `transactionDatabase.db.emit("error", e)`. -/
  | emitError (e : Err)
  /-- instrumentation: a caller-invoked `commit` (`isCommit = true`) or
  `rollback` passed the `finished` check on generation `g`. -/
  | boundCall (g : Nat) (isCommit : Bool)
  /-- instrumentation: an `if (err)` branch inside a wait continuation ran. -/
  | ifErrTaken (g : Nat)
  /-- the COMMIT statement of generation `g` reported error `e`. -/
  | commitFailed (g : Nat) (e : Err)
  /-- `finishTransaction` ran for generation `g`: `finished = true;
  self.currentTransaction = null` (followed by the queue drain). -/
  | finish (g : Nat)
  /-- `callback(null, tr)`: `beginTransaction` reported success. -/
  | beginOk (g : Nat)
  /-- the `beginTransaction` callback ran with `e`. -/
  | userBeginCb (g : Nat) (e : Option Err)
  /-- the commit callback of generation `g` ran with `e`. -/
  | userCommitCb (g : Nat) (e : Option Err)
  /-- the rollback callback of generation `g` ran with `e`. -/
  | userRollbackCb (g : Nat) (e : Option Err)
deriving DecidableEq, Repr

/-- The facade state.  `lock` is `this._lock`; `queue` is `this.queue`;
`cur` is `this.currentTransaction` (by generation); `nextGen` counts
`beginTransaction` closure instances created; `finishedG` collects the
generations whose `finished` closure flag is set; `inflightLock` lists the
in-flight locking operations (their `hasCb` flags, FIFO); `inflightExec`
lists the in-flight `_exec` statements (FIFO, the connection being
serialized); `waits` lists the pending `_wait` timer checks. -/
structure St where
  lock : Nat
  queue : List QItem
  cur : Option Nat
  nextGen : Nat
  finishedG : List Nat
  inflightLock : List Bool
  inflightExec : List (Stmt × ExecCont)
  waits : List WaitCont
  trace : List Ev
deriving DecidableEq, Repr

/-- The freshly constructed `TransactionDatabase` (source 56-62). -/
def init : St :=
  { lock := 0, queue := [], cur := none, nextGen := 0, finishedG := [],
    inflightLock := [], inflightExec := [], waits := [], trace := [] }

/-- Record an observable event. -/
def emit (e : Ev) (s : St) : St :=
  { s with trace := s.trace ++ [e] }

/-- `self._exec(stmt, cont)`: hand a statement to the serialized connection;
it goes in flight and its continuation runs at completion. -/
def issue (st : Stmt) (g : Nat) (k : ExecCont) (s : St) : St :=
  { s with inflightExec := s.inflightExec ++ [(st, k)],
           trace := s.trace ++ [.issued st g s.lock] }

/-- The callback event a finish callback produces when invoked with `e`.
`commitErrCb g e0` is `function(){ cb(err) }` (source 250): it ignores its
argument and reports the original commit error. -/
def invokeFk : FinishCb → Option Err → Ev
  | .beginCb g, e => .userBeginCb g e
  | .commitCb g, e => .userCommitCb g e
  | .commitErrCb g e0, _ => .userCommitCb g (some e0)
  | .rollbackCb g, e => .userRollbackCb g e

/-- The wait-gate continuations as the gate actually invokes them:
`callback()` with no argument (source 164), so `err` is undefined and the
`if (err)` tests fail; each continuation then issues its statement. -/
def runWaitContNone : WaitCont → St → St
  | .wBegin g, s => issue .sBegin g (.beginCont g) s
  | .wCommit g, s => issue .sCommit g (.commitCont g) s
  | .wRollback g k, s => issue .sRollback g (.rollbackCont g k) s

/-- `TransactionDatabase.prototype._wait` (source 160-169): `check()` runs
synchronously; if `_lock === 0` the continuation is invoked at once
(with no arguments), otherwise the check is re-armed on a timer. -/
def waitGate (c : WaitCont) (s : St) : St :=
  if s.lock = 0 then runWaitContNone c s
  else { s with waits := s.waits ++ [c] }

/-- `TransactionDatabase.prototype.beginTransaction` (source 218-277),
synchronous part.  With a transaction active the call is queued as a
transaction item.  Otherwise `tr = self.db`, `finished = false`,
`self.currentTransaction = tr` (a fresh generation), and the BEGIN issuance
goes through the wait gate. -/
def beginTransaction (s : St) : St :=
  match s.cur with
  | some _ => emit (.enqueued .txn) { s with queue := s.queue ++ [.txn] }
  | none =>
      let g := s.nextGen
      waitGate (.wBegin g)
        (emit (.own g .db) { s with cur := some g, nextGen := g + 1 })

/-- `TransactionDatabase.prototype._runQueue` (source 179-191): shift the
head item; a locking item increments `_lock` and its call goes in flight; a
simple item is dispatched; a transaction item re-enters `beginTransaction`
and stops the drain. -/
def runQueueGo : List QItem → St → St
  | [], s => s
  | it :: rest, s =>
      let s1 := { s with queue := rest }
      match it with
      | .lock hasCb =>
          runQueueGo rest (emit (.dispatched (.lock hasCb))
            { s1 with lock := s1.lock + 1,
                      inflightLock := s1.inflightLock ++ [hasCb] })
      | .simple => runQueueGo rest (emit (.dispatched .simple) s1)
      | .txn => beginTransaction (emit (.dispatched .txn) s1)

/-- `self._runQueue()`. -/
def runQueue (s : St) : St := runQueueGo s.queue s

/-- `finishTransaction(e, cb)` (source 237-242): set the `finished` flag,
clear `currentTransaction`, drain the queue, then invoke the callback. -/
def finishTransaction (g : Nat) (e : Option Err) (k : FinishCb) (s : St) : St :=
  let s1 := emit (.finish g)
    { s with finishedG := s.finishedG ++ [g], cur := none }
  emit (invokeFk k e) (runQueueGo s1.queue s1)

/-- `tr.rollback` body (source 257-265) with the callback abstracted as `k`:
it is invoked both by callers (k = `rollbackCb`) and by the error branch of
`tr.commit` (k = `commitErrCb`, source 250).  If `finished` is set it
reports "already finished" to `k` at once; otherwise it goes through the
wait gate to issue ROLLBACK. -/
def rollbackBody (g : Nat) (k : FinishCb) (s : St) : St :=
  if g ∈ s.finishedG then emit (invokeFk k (some .alreadyFinished)) s
  else waitGate (.wRollback g k) s

/-- A caller invoking `tr.commit(cb)` (source 244-255): fail at once when
`finished` is set; otherwise (recording the instrumentation event
`boundCall`) go through the wait gate to issue COMMIT. -/
def commitUser (g : Nat) (s : St) : St :=
  if g ∈ s.finishedG then emit (.userCommitCb g (some .alreadyFinished)) s
  else waitGate (.wCommit g) (emit (.boundCall g true) s)

/-- A caller invoking `tr.rollback(cb)` (source 257-265). -/
def rollbackUser (g : Nat) (s : St) : St :=
  if g ∈ s.finishedG then emit (.userRollbackCb g (some .alreadyFinished)) s
  else waitGate (.wRollback g (.rollbackCb g)) (emit (.boundCall g false) s)

/-- Completion continuations of in-flight `_exec` calls.  BEGIN success
runs `callback(null, tr)`; BEGIN failure runs `callback(err)` and nothing
else (source 271 - in particular `currentTransaction` is not cleared).
COMMIT success finishes; COMMIT failure runs `tr.rollback` with the
original-error wrapper (source 249-250).  ROLLBACK completion finishes with
the rollback error (source 261-263). -/
def runExecCont : ExecCont → Option Err → St → St
  | .beginCont g, none, s => emit (.beginOk g) s
  | .beginCont g, some e, s => emit (.userBeginCb g (some e)) s
  | .commitCont g, none, s => finishTransaction g none (.commitCb g) s
  | .commitCont g, some e, s =>
      rollbackBody g (.commitErrCb g e) (emit (.commitFailed g e) s)
  | .rollbackCont g k, e, s => finishTransaction g e k s

/-- The serialized connection completes its oldest in-flight statement,
reporting `res` (`none` = success). -/
def execDone (res : Option Err) (s : St) : St :=
  match s.inflightExec with
  | [] => s
  | (_, k) :: rest => runExecCont k res { s with inflightExec := rest }

/-- A wrapped facade method call, `wrapDbMethod` (source 103-147): a locking
method has its trailing callback hijacked (`hasCb` records whether the
caller supplied one - otherwise one forwarding errors to the error channel
is synthesized).  With no active transaction the call dispatches at once,
incrementing `_lock` first when locking; otherwise it is queued. -/
def callOp (locking hasCb : Bool) (s : St) : St :=
  match s.cur with
  | none =>
      if locking then
        emit (.opDispatched true hasCb)
          { s with lock := s.lock + 1,
                   inflightLock := s.inflightLock ++ [hasCb] }
      else emit (.opDispatched false hasCb) s
  | some _ =>
      let it : QItem := if locking then .lock hasCb else .simple
      emit (.enqueued it) { s with queue := s.queue ++ [it] }

/-- The oldest in-flight locking operation completes with `res`, running
`newCallback` (source 112-116): the balance check, the decrement, then the
original callback - or the synthesized one (source 123-125), which emits
`res` on the error channel when it is an error. -/
def lockDone (res : Option Err) (s : St) : St :=
  match s.inflightLock with
  | [] => s
  | hasCb :: rest =>
      if s.lock < 1 then emit .fatalImbalance s
      else
        if hasCb then
          emit (.userOpCb res)
            (emit .lockDec { s with lock := s.lock - 1, inflightLock := rest })
        else
          match res with
          | some e =>
              emit (.emitError e)
                (emit .lockDec
                  { s with lock := s.lock - 1, inflightLock := rest })
          | none =>
              emit .lockDec { s with lock := s.lock - 1, inflightLock := rest }

/-- A pending wait-gate timer (index `i`) fires and runs `check()` again:
when `_lock` is zero the continuation runs (with no arguments); otherwise
the check is re-armed (the state is unchanged, the wait stays pending). -/
def fireWait (i : Nat) (s : St) : St :=
  if s.lock = 0 then
    match s.waits[i]? with
    | some c => runWaitContNone c { s with waits := s.waits.eraseIdx i }
    | none => s
  else s

/-- One atomic event-loop turn, chosen by the environment: a caller action
on the facade, a caller action on the raw transaction handle, a timer, or a
completion reported by the connection.  `callCommit` / `callRollback` name
the generation whose closure is invoked; the closure must exist. -/
inductive Act
  | callOp (locking hasCb : Bool)
  | callTr
  | callBegin
  | callCommit (g : Nat)
  | callRollback (g : Nat)
  | fireWait (i : Nat)
  | execDone (res : Option Err)
  | lockDone (res : Option Err)
deriving DecidableEq, Repr

/-- The step function of the event-loop semantics. -/
def step (s : St) (a : Act) : St :=
  match a with
  | .callOp l c => callOp l c s
  | .callTr => emit .rawDispatched s
  | .callBegin => beginTransaction s
  | .callCommit g => if g < s.nextGen then commitUser g s else s
  | .callRollback g => if g < s.nextGen then rollbackUser g s else s
  | .fireWait i => fireWait i s
  | .execDone r => execDone r s
  | .lockDone r => lockDone r s

/-- The state reached from the fresh facade by a sequence of turns. -/
def reach (acts : List Act) : St := acts.foldl step init

/-- the `hasCb` flags of the locking items of a queue segment, in order. -/
def lockFlags : List QItem → List Bool
  | [] => []
  | .lock c :: r => c :: lockFlags r
  | .simple :: r => lockFlags r
  | .txn :: r => lockFlags r

/-- the number of locking items in a queue segment. -/
def lockCount (q : List QItem) : Nat := (lockFlags q).length

/-- Modelled from the spec, section 4.3 (pending-queue drain): the queue
prefix a drain dispatches - every item up to and including the first
transaction-request, or the whole queue when none occurs. -/
def drainDispatchedSpec : List QItem → List QItem
  | [] => []
  | .txn :: _ => [.txn]
  | .lock c :: rest => .lock c :: drainDispatchedSpec rest
  | .simple :: rest => .simple :: drainDispatchedSpec rest

/-- Modelled from the spec, section 4.3: what is left of the queue after a
drain (everything past the first transaction-request; nothing otherwise). -/
def drainRestSpec : List QItem → List QItem
  | [] => []
  | .txn :: rest => rest
  | .lock _ :: rest => drainRestSpec rest
  | .simple :: rest => drainRestSpec rest

/-- the generations of the caller boundary calls recorded in a trace. -/
def boundGens (t : List Ev) : List Nat :=
  t.filterMap fun e =>
    match e with
    | .boundCall g _ => some g
    | _ => none

/-- Well-formed usage of the transaction handles: no generation has
`commit` or `rollback` invoked on it a second time before a first such call
has completed (the `finished` flag check cannot stop a second call arriving
while the first boundary statement is still in flight). -/
def WellUsed (t : List Ev) : Prop := (boundGens t).Nodup

/-- the generation a pending wait will finish, when its continuation ends
in `finishTransaction` (COMMIT and ROLLBACK do; BEGIN does not). -/
def waitFin : WaitCont → Option Nat
  | .wCommit g => some g
  | .wRollback g _ => some g
  | .wBegin _ => none

/-- the generation an in-flight statement will finish at completion. -/
def execFin : ExecCont → Option Nat
  | .commitCont g => some g
  | .rollbackCont g _ => some g
  | .beginCont _ => none

/-- pending finishers: the wait-gate entries and in-flight statements whose
eventual completion runs `finishTransaction` for the listed generation. -/
def finishers (s : St) : List Nat :=
  s.waits.filterMap waitFin ++ s.inflightExec.filterMap fun p => execFin p.2

/-- the generation a pending wait belongs to. -/
def waitGen : WaitCont → Nat
  | .wBegin g => g
  | .wCommit g => g
  | .wRollback g _ => g

/-- the generation an in-flight statement belongs to. -/
def execGen : ExecCont → Nat
  | .beginCont g => g
  | .commitCont g => g
  | .rollbackCont g _ => g

/-- one trace event is sound for the unconditional invariants: statements
are only ever issued with the lock counter at zero, no wait continuation
ever received an error argument, and the lock-balance exception never
fired. -/
def evOK (e : Ev) : Prop :=
  (∀ st g l, e = .issued st g l → l = 0) ∧
    (∀ g, e ≠ .ifErrTaken g) ∧ e ≠ .fatalImbalance

/-- every event of the trace is sound. -/
def traceOK (t : List Ev) : Prop := ∀ e ∈ t, evOK e

/-- every connection error delivered to a commit callback in a trace comes
from a failed COMMIT of the same generation, after a ROLLBACK was issued
for it and the generation finished. -/
def CcbP (t : List Ev) : Prop :=
  ∀ g e, Ev.userCommitCb g (some e) ∈ t →
    e = .alreadyFinished ∨
      (Ev.commitFailed g e ∈ t ∧ Ev.issued .sRollback g 0 ∈ t ∧
        Ev.finish g ∈ t)

/-- The unconditional state invariant of the facade. -/
structure Base (s : St) : Prop where
  tr : traceOK s.trace
  bal : s.lock = s.inflightLock.length
  fin_iff : ∀ g, g ∈ s.finishedG ↔ Ev.finish g ∈ s.trace
  own_iff : ∀ g, Ev.own g Obj.db ∈ s.trace ↔ g < s.nextGen
  own_db : ∀ g h, Ev.own g h ∈ s.trace → h = Obj.db
  cur_lt : ∀ g, s.cur = some g → g < s.nextGen
  cur_unfin : ∀ g, s.cur = some g → g ∉ s.finishedG
  fin_lt : ∀ g ∈ s.finishedG, g < s.nextGen
  waits_lt : ∀ c ∈ s.waits, waitGen c < s.nextGen
  exec_lt : ∀ p ∈ s.inflightExec, execGen p.2 < s.nextGen
  wr_shape : ∀ g k, WaitCont.wRollback g k ∈ s.waits →
    k = FinishCb.rollbackCb g ∨ ∃ e, k = FinishCb.commitErrCb g e
  rc_shape : ∀ st g k, (st, ExecCont.rollbackCont g k) ∈ s.inflightExec →
    k = FinishCb.rollbackCb g ∨ ∃ e, k = FinishCb.commitErrCb g e

/-- The invariant holding under well-formed usage: the unfinished
generation is unique and is the current transaction; at most one pending
finisher exists and it matches the current transaction; the failed-commit
bookkeeping ties rollback continuations to their originating COMMIT error;
and every error delivered to a commit callback is either the
"already finished" rejection or the error of a failed COMMIT, in which case
a ROLLBACK was issued and the transaction finished. -/
structure Cond (s : St) : Prop where
  unfin_cur : ∀ g, g < s.nextGen → g ∉ s.finishedG → s.cur = some g
  fins_cur : ∀ g ∈ finishers s, s.cur = some g ∧ g ∈ boundGens s.trace
  fins_one : (finishers s).length ≤ 1
  cf_wait : ∀ g g2 e, WaitCont.wRollback g (FinishCb.commitErrCb g2 e) ∈ s.waits →
    g2 = g ∧ Ev.commitFailed g e ∈ s.trace
  cf_exec : ∀ st g g2 e,
    (st, ExecCont.rollbackCont g (FinishCb.commitErrCb g2 e)) ∈ s.inflightExec →
    g2 = g ∧ Ev.commitFailed g e ∈ s.trace ∧ Ev.issued .sRollback g 0 ∈ s.trace
  ccb : CcbP s.trace

/-- the full invariant: the unconditional part, and the conditional part
under well-formed usage of the handles. -/
def Inv (s : St) : Prop := Base s ∧ (WellUsed s.trace → Cond s)

/-- Claim C2 as stated: `currentTransaction` is non-null exactly while some
transaction is between a successful BEGIN (its begin callback receiving the
transaction handle) and a completed COMMIT/ROLLBACK. -/
def claimC2 : Prop :=
  ∀ acts : List Act,
    (reach acts).cur.isSome = true ↔
      ∃ g, Ev.beginOk g ∈ (reach acts).trace ∧
        Ev.finish g ∉ (reach acts).trace

/-- Claim C5 as stated: whenever a commit callback reports a connection
error (its COMMIT statement failed), a ROLLBACK was issued for that
transaction and the transaction is finished by that time. -/
def claimC5 : Prop :=
  ∀ (acts : List Act) (g n : Nat),
    Ev.userCommitCb g (some (.db n)) ∈ (reach acts).trace →
      (∃ l, Ev.issued .sRollback g l ∈ (reach acts).trace) ∧
        Ev.finish g ∈ (reach acts).trace

/-- JavaScript values relevant to the error-listener property lookup. -/
inductive JsVal
  | nullV
  | undefinedV
  | objV
deriving DecidableEq, Repr

/-- underscore's `_.isNull`: a strict `=== null` test (false on
`undefined`). -/
def isNull : JsVal → Bool
  | .nullV => true
  | _ => false

/-- the possible outcomes of one run of the `error` listener body. -/
inductive ListenerOutcome
  | noAction
  | rollbackIssued
  | thrownTypeError
deriving DecidableEq, Repr

/-- The `error` listener installed at construction (source 72-75):
`this.db.on('error', function() { if (!_.isNull(this.currentTransaction))
this.currentTransaction.rollback(function() {}); })`.  Node invokes a
plain-function listener with `this` bound to the emitter - here the raw
wrapped database, which is never assigned a `currentTransaction` property
(only the `TransactionDatabase` facade object is, line 60/235), so the
lookup yields `undefined`.  `_.isNull(undefined)` is false, so the guard is
entered, and the property access `.rollback` on `undefined` throws a
TypeError. -/
def onErrorListener : ListenerOutcome :=
  let thisCurrentTransaction : JsVal := .undefinedV
  if !(isNull thisCurrentTransaction) then
    match thisCurrentTransaction with
    | .objV => .rollbackIssued
    | _ => .thrownTypeError
  else .noAction

/-- The wait continuations exactly as written in the source, with their
`err` parameter and `if (err)` branches (source 268-269, 246-247, 259-260).
The BEGIN continuation would call `finishTransaction(err, callback)` and
fall through to issuing BEGIN (there is no `return`); the COMMIT and
ROLLBACK continuations would call `callback(err)` - `callback` being the
*beginTransaction* callback, not their own `cb` - and fall through to
issuing their statement.  The wait gate itself always invokes them as
`callback()`, that is, with `none`. -/
def runWaitCont (c : WaitCont) (e : Option Err) (s : St) : St :=
  match c with
  | .wBegin g =>
      let s1 :=
        match e with
        | some e1 =>
            finishTransaction g (some e1) (.beginCb g) (emit (.ifErrTaken g) s)
        | none => s
      issue .sBegin g (.beginCont g) s1
  | .wCommit g =>
      let s1 :=
        match e with
        | some e1 => emit (.userBeginCb g (some e1)) (emit (.ifErrTaken g) s)
        | none => s
      issue .sCommit g (.commitCont g) s1
  | .wRollback g k =>
      let s1 :=
        match e with
        | some e1 => emit (.userBeginCb g (some e1)) (emit (.ifErrTaken g) s)
        | none => s
      issue .sRollback g (.rollbackCont g k) s1

@[simp] theorem emit_lock (e : Ev) (s : St) : (emit e s).lock = s.lock := rfl

@[simp] theorem emit_queue (e : Ev) (s : St) : (emit e s).queue = s.queue := rfl

@[simp] theorem emit_cur (e : Ev) (s : St) : (emit e s).cur = s.cur := rfl

@[simp] theorem emit_nextGen (e : Ev) (s : St) : (emit e s).nextGen = s.nextGen := rfl

@[simp] theorem emit_finishedG (e : Ev) (s : St) : (emit e s).finishedG = s.finishedG := rfl

@[simp] theorem emit_inflightLock (e : Ev) (s : St) : (emit e s).inflightLock = s.inflightLock := rfl

@[simp] theorem emit_inflightExec (e : Ev) (s : St) : (emit e s).inflightExec = s.inflightExec := rfl

@[simp] theorem emit_waits (e : Ev) (s : St) : (emit e s).waits = s.waits := rfl

@[simp] theorem emit_trace (e : Ev) (s : St) : (emit e s).trace = s.trace ++ [e] := rfl

@[simp] theorem issue_lock (st : Stmt) (g : Nat) (k : ExecCont) (s : St) :
    (issue st g k s).lock = s.lock := rfl

@[simp] theorem issue_queue (st : Stmt) (g : Nat) (k : ExecCont) (s : St) :
    (issue st g k s).queue = s.queue := rfl

@[simp] theorem issue_cur (st : Stmt) (g : Nat) (k : ExecCont) (s : St) :
    (issue st g k s).cur = s.cur := rfl

@[simp] theorem issue_nextGen (st : Stmt) (g : Nat) (k : ExecCont) (s : St) :
    (issue st g k s).nextGen = s.nextGen := rfl

@[simp] theorem issue_finishedG (st : Stmt) (g : Nat) (k : ExecCont) (s : St) :
    (issue st g k s).finishedG = s.finishedG := rfl

@[simp] theorem issue_inflightLock (st : Stmt) (g : Nat) (k : ExecCont) (s : St) :
    (issue st g k s).inflightLock = s.inflightLock := rfl

@[simp] theorem issue_inflightExec (st : Stmt) (g : Nat) (k : ExecCont) (s : St) :
    (issue st g k s).inflightExec = s.inflightExec ++ [(st, k)] := rfl

@[simp] theorem issue_waits (st : Stmt) (g : Nat) (k : ExecCont) (s : St) :
    (issue st g k s).waits = s.waits := rfl

@[simp] theorem issue_trace (st : Stmt) (g : Nat) (k : ExecCont) (s : St) :
    (issue st g k s).trace = s.trace ++ [.issued st g s.lock] := rfl

/-- C4.  The claim says an asynchronous connection error while a transaction
is active makes the system issue a rollback on it.  The handler as written
never does: the listener's `this` is the raw database object, whose
`currentTransaction` lookup yields `undefined`; `!_.isNull(undefined)` is
true, and calling `.rollback` on `undefined` throws a TypeError, so no
rollback is ever issued by this path. -/
theorem c4_error_listener_throws :
    onErrorListener = ListenerOutcome.thrownTypeError ∧
      onErrorListener ≠ ListenerOutcome.rollbackIssued := by
  exact ⟨rfl, by decide⟩

/-- C6.  The claim says that when BEGIN fails the controller returns to
idle without `currentTransaction` set.  In the code `currentTransaction` is
assigned before BEGIN is issued and the failure path only invokes
`callback(err)`: after a failed BEGIN the callback has run with the error,
yet `currentTransaction` is still the handle, so the facade queues
everything forever. -/
theorem c6_begin_failure_keeps_currentTransaction :
    (reach [.callBegin, .execDone (some (.db 0))]).cur = some 0 ∧
      Ev.userBeginCb 0 (some (.db 0)) ∈
        (reach [.callBegin, .execDone (some (.db 0))]).trace ∧
      (Ev.finish 0) ∉ (reach [.callBegin, .execDone (some (.db 0))]).trace := by
  refine ⟨rfl, by decide, by decide⟩

/-- C2, counterexample.  One `beginTransaction` call on the idle facade
sets `currentTransaction` immediately, before the BEGIN statement has
completed (indeed before any begin callback has run), so the window during
which `currentTransaction` is non-null is not the interval from a
successful BEGIN to a completed COMMIT/ROLLBACK. -/
theorem c2_counterexample : ¬ claimC2 := by
  intro h
  obtain ⟨g, hg, _⟩ := (h [.callBegin]).mp (by decide)
  have ht : (reach [Act.callBegin]).trace =
      [.own 0 .db, .issued .sBegin 0 0] := by decide
  rw [ht] at hg
  simp at hg

/-- C5, counterexample.  Two `commit` calls racing on the same handle: the
first COMMIT succeeds and finishes the transaction, the second COMMIT then
fails; its error branch calls `tr.rollback`, which - `finished` now being
set - rejects immediately, so the second caller's callback receives the
COMMIT error although no ROLLBACK statement was ever issued. -/
theorem c5_counterexample : ¬ claimC5 := by
  intro h
  obtain ⟨⟨l, hl⟩, -⟩ := h
    [.callBegin, .execDone none, .callCommit 0, .callCommit 0,
     .execDone none, .execDone (some (.db 1))] 0 1 (by decide)
  have ht : (reach
      [Act.callBegin, .execDone none, .callCommit 0, .callCommit 0,
       .execDone none, .execDone (some (.db 1))]).trace =
      [.own 0 .db, .issued .sBegin 0 0, .beginOk 0, .boundCall 0 true,
       .issued .sCommit 0 0, .boundCall 0 true, .issued .sCommit 0 0,
       .finish 0, .userCommitCb 0 none, .commitFailed 0 (.db 1),
       .userCommitCb 0 (some (.db 1))] := by decide
  rw [ht] at hl
  simp at hl

/-- C7: calling `commit` or `rollback` on a handle whose terminal flag is
set fails immediately with the already-finished error and has no side
effects: the state is unchanged except for the one callback event - in
particular no statement is issued and lock counter, queue and
`currentTransaction` are untouched. -/
theorem c7_terminal_misuse_no_side_effects :
    ∀ (s : St) (g : Nat), g ∈ s.finishedG →
      commitUser g s = emit (.userCommitCb g (some .alreadyFinished)) s ∧
      rollbackUser g s = emit (.userRollbackCb g (some .alreadyFinished)) s ∧
      (commitUser g s).lock = s.lock ∧
      (commitUser g s).queue = s.queue ∧
      (commitUser g s).cur = s.cur ∧
      (commitUser g s).inflightExec = s.inflightExec ∧
      (commitUser g s).trace =
        s.trace ++ [.userCommitCb g (some .alreadyFinished)] ∧
      (rollbackUser g s).lock = s.lock ∧
      (rollbackUser g s).queue = s.queue ∧
      (rollbackUser g s).cur = s.cur ∧
      (rollbackUser g s).inflightExec = s.inflightExec ∧
      (rollbackUser g s).trace =
        s.trace ++ [.userRollbackCb g (some .alreadyFinished)] := by
  intro s g hg
  simp [commitUser, rollbackUser, hg]

/-- C7 witness: after a committed transaction the generation is terminal,
and a second commit on it only appends the rejection callback event. -/
theorem c7_witness :
    0 ∈ (reach [.callBegin, .execDone none, .callCommit 0,
      .execDone none]).finishedG ∧
    commitUser 0 (reach [.callBegin, .execDone none, .callCommit 0,
        .execDone none]) =
      emit (.userCommitCb 0 (some .alreadyFinished))
        (reach [.callBegin, .execDone none, .callCommit 0,
          .execDone none]) := by
  exact ⟨by decide,
    (c7_terminal_misuse_no_side_effects _ 0 (by decide)).1⟩

theorem runQueueGo_no_txn :
    ∀ (q : List QItem) (s : St), s.queue = q → QItem.txn ∉ q →
      runQueueGo q s =
        { s with queue := [], lock := s.lock + lockCount q,
                 inflightLock := s.inflightLock ++ lockFlags q,
                 trace := s.trace ++ q.map Ev.dispatched } := by
  intro q
  induction q with
  | nil =>
      intro s hq _
      obtain ⟨lk, qu, cu, ng, fg, il, ie, ws, tr⟩ := s
      simp only [St.queue] at hq
      subst hq
      simp [runQueueGo, lockCount, lockFlags]
  | cons it rest ih =>
      intro s hq hno
      have hit : it ≠ QItem.txn := by
        intro h; exact hno (h ▸ List.mem_cons_self it rest)
      have hrest : QItem.txn ∉ rest := fun h => hno (List.mem_cons_of_mem _ h)
      obtain ⟨lk, qu, cu, ng, fg, il, ie, ws, tr⟩ := s
      cases it with
      | txn => exact absurd rfl hit
      | lock c =>
          rw [runQueueGo]
          rw [ih _ rfl hrest]
          simp [emit, lockCount, lockFlags]
          omega
      | simple =>
          rw [runQueueGo]
          rw [ih _ rfl hrest]
          simp [emit, lockCount, lockFlags, List.append_assoc]

theorem mem_first_split {α : Type} [DecidableEq α] (a : α) :
    ∀ l : List α, a ∈ l → ∃ l1 l2, l = l1 ++ a :: l2 ∧ a ∉ l1 := by
  intro l
  induction l with
  | nil => intro h; cases h
  | cons b t ih =>
      intro h
      by_cases hb : b = a
      · exact ⟨[], t, by rw [hb]; rfl, by simp⟩
      · have ht : a ∈ t := by
          cases h with
          | head => exact absurd rfl hb
          | tail _ h2 => exact h2
        obtain ⟨l1, l2, he, hn⟩ := ih ht
        exact ⟨b :: l1, l2, by rw [he]; rfl, by
          simp [hn]; exact fun h2 => hb h2.symm⟩

theorem runQueueGo_txn :
    ∀ (q1 : List QItem), QItem.txn ∉ q1 → ∀ (q2 : List QItem) (s : St),
      runQueueGo (q1 ++ .txn :: q2) s =
        beginTransaction (emit (.dispatched .txn)
          { s with queue := q2, lock := s.lock + lockCount q1,
                   inflightLock := s.inflightLock ++ lockFlags q1,
                   trace := s.trace ++ q1.map Ev.dispatched }) := by
  intro q1
  induction q1 with
  | nil =>
      intro _ q2 s
      obtain ⟨lk, qu, cu, ng, fg, il, ie, ws, tr⟩ := s
      simp [runQueueGo, emit, lockCount, lockFlags]
  | cons it rest ih =>
      intro hno q2 s
      have hit : it ≠ QItem.txn := by
        intro h; exact hno (h ▸ List.mem_cons_self it rest)
      have hrest : QItem.txn ∉ rest := fun h => hno (List.mem_cons_of_mem _ h)
      obtain ⟨lk, qu, cu, ng, fg, il, ie, ws, tr⟩ := s
      cases it with
      | txn => exact absurd rfl hit
      | lock c =>
          rw [List.cons_append, runQueueGo]
          rw [ih hrest]
          congr 1
          simp [emit, lockCount, lockFlags]
          omega
      | simple =>
          rw [List.cons_append, runQueueGo]
          rw [ih hrest]
          congr 1
          simp [emit, lockCount, lockFlags, List.append_assoc]

theorem drainDispatchedSpec_no_txn :
    ∀ q : List QItem, QItem.txn ∉ q → drainDispatchedSpec q = q := by
  intro q
  induction q with
  | nil => intro _; rfl
  | cons it rest ih =>
      intro h
      have hit : it ≠ QItem.txn := fun he => h (he ▸ List.mem_cons_self it rest)
      have hr := ih fun h2 => h (List.mem_cons_of_mem _ h2)
      cases it with
      | txn => exact absurd rfl hit
      | lock c => rw [drainDispatchedSpec, hr]
      | simple => rw [drainDispatchedSpec, hr]

theorem drainRestSpec_no_txn :
    ∀ q : List QItem, QItem.txn ∉ q → drainRestSpec q = [] := by
  intro q
  induction q with
  | nil => intro _; rfl
  | cons it rest ih =>
      intro h
      have hit : it ≠ QItem.txn := fun he => h (he ▸ List.mem_cons_self it rest)
      have hr := ih fun h2 => h (List.mem_cons_of_mem _ h2)
      cases it with
      | txn => exact absurd rfl hit
      | lock c => rw [drainRestSpec, hr]
      | simple => rw [drainRestSpec, hr]

theorem drainDispatchedSpec_split :
    ∀ q1 : List QItem, QItem.txn ∉ q1 → ∀ q2,
      drainDispatchedSpec (q1 ++ .txn :: q2) = q1 ++ [.txn] := by
  intro q1
  induction q1 with
  | nil => intro _ q2; rfl
  | cons it rest ih =>
      intro h q2
      have hit : it ≠ QItem.txn := fun he => h (he ▸ List.mem_cons_self it rest)
      have hr := ih (fun h2 => h (List.mem_cons_of_mem _ h2)) q2
      cases it with
      | txn => exact absurd rfl hit
      | lock c => rw [List.cons_append, drainDispatchedSpec, hr]; rfl
      | simple => rw [List.cons_append, drainDispatchedSpec, hr]; rfl

theorem drainRestSpec_split :
    ∀ q1 : List QItem, QItem.txn ∉ q1 → ∀ q2,
      drainRestSpec (q1 ++ .txn :: q2) = q2 := by
  intro q1
  induction q1 with
  | nil => intro _ q2; rfl
  | cons it rest ih =>
      intro h q2
      have hit : it ≠ QItem.txn := fun he => h (he ▸ List.mem_cons_self it rest)
      have hr := ih (fun h2 => h (List.mem_cons_of_mem _ h2)) q2
      cases it with
      | txn => exact absurd rfl hit
      | lock c => rw [List.cons_append, drainRestSpec, hr]
      | simple => rw [List.cons_append, drainRestSpec, hr]

theorem runQueue_no_txn (s : St) (h : QItem.txn ∉ s.queue) :
    runQueueGo s.queue s =
      { s with queue := [], lock := s.lock + lockCount s.queue,
               inflightLock := s.inflightLock ++ lockFlags s.queue,
               trace := s.trace ++ s.queue.map Ev.dispatched } :=
  runQueueGo_no_txn s.queue s rfl h

theorem runQueue_txn (s : St) (q1 q2 : List QItem)
    (hq : s.queue = q1 ++ .txn :: q2) (h1 : QItem.txn ∉ q1) :
    runQueueGo s.queue s =
      beginTransaction (emit (.dispatched .txn)
        { s with queue := q2, lock := s.lock + lockCount q1,
                 inflightLock := s.inflightLock ++ lockFlags q1,
                 trace := s.trace ++ q1.map Ev.dispatched }) := by
  rw [hq]
  exact runQueueGo_txn q1 h1 q2 s

theorem finishTransaction_no_txn (g : Nat) (e : Option Err) (k : FinishCb)
    (s : St) (h : QItem.txn ∉ s.queue) :
    finishTransaction g e k s =
      { s with finishedG := s.finishedG ++ [g], cur := none, queue := [],
               lock := s.lock + lockCount s.queue,
               inflightLock := s.inflightLock ++ lockFlags s.queue,
               trace := s.trace ++ [.finish g] ++ s.queue.map Ev.dispatched
                 ++ [invokeFk k e] } := by
  have h1 : QItem.txn ∉ (emit (Ev.finish g)
      { s with finishedG := s.finishedG ++ [g], cur := none }).queue := h
  simp only [finishTransaction]
  rw [runQueue_no_txn _ h1]
  obtain ⟨lk, qu, cu, ng, fg, il, ie, ws, tr⟩ := s
  simp [emit, List.append_assoc]

theorem finishTransaction_txn (g : Nat) (e : Option Err) (k : FinishCb)
    (s : St) (q1 q2 : List QItem) (hq : s.queue = q1 ++ .txn :: q2)
    (h1 : QItem.txn ∉ q1) :
    finishTransaction g e k s =
      (if s.lock + lockCount q1 = 0 then
        { s with finishedG := s.finishedG ++ [g], cur := some s.nextGen,
                 nextGen := s.nextGen + 1, queue := q2,
                 lock := s.lock + lockCount q1,
                 inflightLock := s.inflightLock ++ lockFlags q1,
                 inflightExec :=
                   s.inflightExec ++ [(.sBegin, .beginCont s.nextGen)],
                 trace := s.trace ++ [.finish g] ++ q1.map Ev.dispatched
                   ++ [.dispatched .txn, .own s.nextGen .db,
                       .issued .sBegin s.nextGen 0] ++ [invokeFk k e] }
      else
        { s with finishedG := s.finishedG ++ [g], cur := some s.nextGen,
                 nextGen := s.nextGen + 1, queue := q2,
                 lock := s.lock + lockCount q1,
                 inflightLock := s.inflightLock ++ lockFlags q1,
                 waits := s.waits ++ [.wBegin s.nextGen],
                 trace := s.trace ++ [.finish g] ++ q1.map Ev.dispatched
                   ++ [.dispatched .txn, .own s.nextGen .db]
                   ++ [invokeFk k e] }) := by
  obtain ⟨lk, qu, cu, ng, fg, il, ie, ws, tr⟩ := s
  simp only [St.queue] at hq
  subst hq
  simp only [finishTransaction]
  rw [runQueue_txn _ q1 q2 rfl h1]
  by_cases h0 : lk + lockCount q1 = 0
  · simp [h0, beginTransaction, waitGate, runWaitContNone, issue, emit,
      List.append_assoc]
  · simp [h0, beginTransaction, waitGate, emit, List.append_assoc]

/-- C3: when a transaction completes (a `finishTransaction` run after
commit or rollback), the pending-queue drain runs exactly once, strictly
before the finishing caller's callback, which is the last event of the
completion; the drain dispatches the head items in FIFO order without
awaiting their completion, incrementing the lock counter exactly for the
locking items; it stops immediately after dispatching a
transaction-request (which re-enters `beginTransaction` and takes
ownership of the connection), and simply stops when the queue empties
without one - agreeing with the spec-modelled drain
(`drainDispatchedSpec` / `drainRestSpec`). -/
theorem c3_completion_drains_once_before_callback :
    ∀ (g : Nat) (e : Option Err) (k : FinishCb) (s : St),
      (∃ devs, (finishTransaction g e k s).trace =
          s.trace ++ [.finish g] ++ devs ++ [invokeFk k e]) ∧
      (QItem.txn ∉ s.queue →
        drainDispatchedSpec s.queue = s.queue ∧
        drainRestSpec s.queue = [] ∧
        finishTransaction g e k s =
          { s with finishedG := s.finishedG ++ [g], cur := none, queue := [],
                   lock := s.lock + lockCount s.queue,
                   inflightLock := s.inflightLock ++ lockFlags s.queue,
                   trace := s.trace ++ [.finish g]
                     ++ s.queue.map Ev.dispatched ++ [invokeFk k e] }) ∧
      (∀ q1 q2, s.queue = q1 ++ .txn :: q2 → QItem.txn ∉ q1 →
        drainDispatchedSpec s.queue = q1 ++ [.txn] ∧
        drainRestSpec s.queue = q2 ∧
        (finishTransaction g e k s).queue = q2 ∧
        (finishTransaction g e k s).lock = s.lock + lockCount q1 ∧
        (finishTransaction g e k s).cur = some s.nextGen ∧
        (finishTransaction g e k s).trace =
          s.trace ++ [.finish g] ++ q1.map Ev.dispatched
            ++ [.dispatched .txn, .own s.nextGen .db]
            ++ (if s.lock + lockCount q1 = 0
                then [Ev.issued .sBegin s.nextGen 0] else [])
            ++ [invokeFk k e]) := by
  intro g e k s
  refine ⟨?_, ?_, ?_⟩
  · by_cases hmem : QItem.txn ∈ s.queue
    · obtain ⟨q1, q2, hq, h1⟩ := mem_first_split _ _ hmem
      rw [finishTransaction_txn g e k s q1 q2 hq h1]
      by_cases h0 : s.lock + lockCount q1 = 0
      · refine ⟨q1.map Ev.dispatched
          ++ [.dispatched .txn, .own s.nextGen .db,
              .issued .sBegin s.nextGen 0], ?_⟩
        rw [if_pos h0]
        simp [List.append_assoc]
      · refine ⟨q1.map Ev.dispatched
          ++ [.dispatched .txn, .own s.nextGen .db], ?_⟩
        rw [if_neg h0]
        simp [List.append_assoc]
    · refine ⟨s.queue.map Ev.dispatched, ?_⟩
      rw [finishTransaction_no_txn g e k s hmem]
  · intro h
    exact ⟨drainDispatchedSpec_no_txn _ h, drainRestSpec_no_txn _ h,
      finishTransaction_no_txn g e k s h⟩
  · intro q1 q2 hq h1
    refine ⟨by rw [hq]; exact drainDispatchedSpec_split q1 h1 q2,
      by rw [hq]; exact drainRestSpec_split q1 h1 q2, ?_⟩
    rw [finishTransaction_txn g e k s q1 q2 hq h1]
    by_cases h0 : s.lock + lockCount q1 = 0
    · rw [if_pos h0, if_pos h0]
      refine ⟨rfl, rfl, rfl, ?_⟩
      simp [List.append_assoc]
    · rw [if_neg h0, if_neg h0]
      refine ⟨rfl, rfl, rfl, ?_⟩
      simp [List.append_assoc]

/-- C3 witness: a concrete completion with queue
`[lock, simple, txn, lock]` dispatches the first three items, stops at the
transaction-request, and runs the callback last. -/
theorem c3_witness :
    QItem.txn ∉ ([QItem.lock true, QItem.simple] : List QItem) ∧
      (finishTransaction 0 none (.commitCb 0)
        { lock := 0, queue := [.lock true, .simple, .txn, .lock false],
          cur := some 0, nextGen := 1, finishedG := [], inflightLock := [],
          inflightExec := [], waits := [], trace := [] }).queue =
        [.lock false] := by
  refine ⟨by decide, ?_⟩
  exact (c3_completion_drains_once_before_callback 0 none (.commitCb 0)
    { lock := 0, queue := [.lock true, .simple, .txn, .lock false],
      cur := some 0, nextGen := 1, finishedG := [], inflightLock := [],
      inflightExec := [], waits := [], trace := [] }).2.2
    [.lock true, .simple] [.lock false] rfl (by decide) |>.2.2.1

theorem invokeFk_evOK (k : FinishCb) (e : Option Err) : evOK (invokeFk k e) := by
  cases k <;> simp [invokeFk, evOK]

theorem traceOK_append {t l : List Ev} (h : traceOK t)
    (hl : ∀ e ∈ l, evOK e) : traceOK (t ++ l) := by
  intro e he
  rcases List.mem_append.mp he with h1 | h1
  · exact h e h1
  · exact hl e h1

theorem CcbP_mono {t l : List Ev} (h : CcbP t)
    (hl : ∀ g e, Ev.userCommitCb g (some e) ∉ l) : CcbP (t ++ l) := by
  intro g e he
  rcases List.mem_append.mp he with h1 | h1
  · rcases h g e h1 with h2 | ⟨h2, h3, h4⟩
    · exact Or.inl h2
    · exact Or.inr ⟨List.mem_append_left _ h2, List.mem_append_left _ h3,
        List.mem_append_left _ h4⟩
  · exact absurd h1 (hl g e)

theorem boundGens_append (t l : List Ev) :
    boundGens (t ++ l) = boundGens t ++ boundGens l :=
  List.filterMap_append t l _

theorem wellUsed_of_append {t l : List Ev} (h : WellUsed (t ++ l)) :
    WellUsed t := by
  rw [WellUsed, boundGens_append] at h
  exact h.of_append_left

theorem getElem?_split {α : Type} :
    ∀ (l : List α) (i : Nat) (c : α), l[i]? = some c →
      ∃ l1 l2, l = l1 ++ c :: l2 ∧ l.eraseIdx i = l1 ++ l2 := by
  intro l
  induction l with
  | nil => intro i c h; simp at h
  | cons a t ih =>
      intro i c h
      cases i with
      | zero =>
          simp at h
          exact ⟨[], t, by rw [h]; rfl, by simp [List.eraseIdx]⟩
      | succ j =>
          rw [List.getElem?_cons_succ] at h
          obtain ⟨l1, l2, he, hr⟩ := ih j c h
          exact ⟨a :: l1, l2, by rw [List.cons_append, ← he],
            by rw [show (a :: t).eraseIdx (j+1) = a :: t.eraseIdx j from rfl,
              hr]; rfl⟩

theorem trace_ext_runWaitContNone (c : WaitCont) (s : St) :
    ∃ l, (runWaitContNone c s).trace = s.trace ++ l := by
  cases c <;> exact ⟨_, rfl⟩

theorem trace_ext_waitGate (c : WaitCont) (s : St) :
    ∃ l, (waitGate c s).trace = s.trace ++ l := by
  rw [waitGate]
  by_cases h : s.lock = 0
  · rw [if_pos h]; exact trace_ext_runWaitContNone c s
  · rw [if_neg h]; exact ⟨[], by simp⟩

theorem trace_ext_beginTransaction (s : St) :
    ∃ l, (beginTransaction s).trace = s.trace ++ l := by
  rw [beginTransaction]
  cases hc : s.cur with
  | some g => exact ⟨_, rfl⟩
  | none =>
      obtain ⟨l, hl⟩ := trace_ext_waitGate (.wBegin s.nextGen)
        (emit (.own s.nextGen .db)
          { s with cur := some s.nextGen, nextGen := s.nextGen + 1 })
      exact ⟨[.own s.nextGen .db] ++ l, by rw [hl]; simp⟩

theorem trace_ext_runQueueGo :
    ∀ (q : List QItem) (s : St), ∃ l, (runQueueGo q s).trace = s.trace ++ l := by
  intro q
  induction q with
  | nil => intro s; exact ⟨[], by simp [runQueueGo]⟩
  | cons it rest ih =>
      intro s
      cases it with
      | lock c =>
          obtain ⟨l, hl⟩ := ih (emit (.dispatched (.lock c))
            { s with queue := rest, lock := s.lock + 1,
                     inflightLock := s.inflightLock ++ [c] })
          exact ⟨[.dispatched (.lock c)] ++ l, by
            rw [runQueueGo]; rw [hl]; simp⟩
      | simple =>
          obtain ⟨l, hl⟩ := ih (emit (.dispatched .simple)
            { s with queue := rest })
          exact ⟨[.dispatched .simple] ++ l, by
            rw [runQueueGo]; rw [hl]; simp⟩
      | txn =>
          obtain ⟨l, hl⟩ := trace_ext_beginTransaction
            (emit (.dispatched .txn) { s with queue := rest })
          exact ⟨[.dispatched .txn] ++ l, by
            rw [runQueueGo]; rw [hl]; simp⟩

theorem trace_ext_finishTransaction (g : Nat) (e : Option Err)
    (k : FinishCb) (s : St) :
    ∃ l, (finishTransaction g e k s).trace = s.trace ++ l := by
  simp only [finishTransaction]
  obtain ⟨l, hl⟩ := trace_ext_runQueueGo
    (emit (Ev.finish g)
      { s with finishedG := s.finishedG ++ [g], cur := none }).queue
    (emit (Ev.finish g) { s with finishedG := s.finishedG ++ [g], cur := none })
  exact ⟨[Ev.finish g] ++ l ++ [invokeFk k e], by
    rw [emit_trace, hl]; simp⟩

theorem trace_ext_rollbackBody (g : Nat) (k : FinishCb) (s : St) :
    ∃ l, (rollbackBody g k s).trace = s.trace ++ l := by
  rw [rollbackBody]
  by_cases h : g ∈ s.finishedG
  · rw [if_pos h]; exact ⟨_, rfl⟩
  · rw [if_neg h]; exact trace_ext_waitGate _ s

theorem trace_ext_commitUser (g : Nat) (s : St) :
    ∃ l, (commitUser g s).trace = s.trace ++ l := by
  rw [commitUser]
  by_cases h : g ∈ s.finishedG
  · rw [if_pos h]; exact ⟨_, rfl⟩
  · rw [if_neg h]
    obtain ⟨l, hl⟩ := trace_ext_waitGate (.wCommit g)
      (emit (.boundCall g true) s)
    exact ⟨[.boundCall g true] ++ l, by rw [hl]; simp⟩

theorem trace_ext_rollbackUser (g : Nat) (s : St) :
    ∃ l, (rollbackUser g s).trace = s.trace ++ l := by
  rw [rollbackUser]
  by_cases h : g ∈ s.finishedG
  · rw [if_pos h]; exact ⟨_, rfl⟩
  · rw [if_neg h]
    obtain ⟨l, hl⟩ := trace_ext_waitGate (.wRollback g (.rollbackCb g))
      (emit (.boundCall g false) s)
    exact ⟨[.boundCall g false] ++ l, by rw [hl]; simp⟩

theorem trace_ext_runExecCont (k : ExecCont) (r : Option Err) (s : St) :
    ∃ l, (runExecCont k r s).trace = s.trace ++ l := by
  cases k with
  | beginCont g => cases r <;> exact ⟨_, rfl⟩
  | commitCont g =>
      cases r with
      | none => exact trace_ext_finishTransaction g none (.commitCb g) s
      | some e =>
          obtain ⟨l, hl⟩ := trace_ext_rollbackBody g (.commitErrCb g e)
            (emit (.commitFailed g e) s)
          exact ⟨[.commitFailed g e] ++ l, by
            rw [runExecCont]; rw [hl]; simp⟩
  | rollbackCont g k2 => exact trace_ext_finishTransaction g r k2 s

theorem trace_ext_step (s : St) (a : Act) :
    ∃ l, (step s a).trace = s.trace ++ l := by
  cases a with
  | callOp lk c =>
      rw [step, callOp]
      cases hc : s.cur with
      | none =>
          by_cases h : lk
          · rw [if_pos h]; exact ⟨_, rfl⟩
          · rw [if_neg h]; exact ⟨_, rfl⟩
      | some g => exact ⟨_, rfl⟩
  | callTr => exact ⟨_, rfl⟩
  | callBegin => exact trace_ext_beginTransaction s
  | callCommit g =>
      rw [step]
      by_cases h : g < s.nextGen
      · rw [if_pos h]; exact trace_ext_commitUser g s
      · rw [if_neg h]; exact ⟨[], by simp⟩
  | callRollback g =>
      rw [step]
      by_cases h : g < s.nextGen
      · rw [if_pos h]; exact trace_ext_rollbackUser g s
      · rw [if_neg h]; exact ⟨[], by simp⟩
  | fireWait i =>
      rw [step, fireWait]
      by_cases h : s.lock = 0
      · rw [if_pos h]
        cases hg : s.waits[i]? with
        | none => exact ⟨[], by simp⟩
        | some c => exact trace_ext_runWaitContNone c _
      · rw [if_neg h]; exact ⟨[], by simp⟩
  | execDone r =>
      rw [step, execDone]
      cases he : s.inflightExec with
      | nil => exact ⟨[], by simp⟩
      | cons p rest =>
          obtain ⟨l, hl⟩ := trace_ext_runExecCont p.2 r
            { s with inflightExec := rest }
          exact ⟨l, by rw [← hl]⟩
  | lockDone r =>
      rw [step, lockDone]
      split
      · exact ⟨[], by simp⟩
      · next hasCb rest _ =>
          by_cases h : s.lock < 1
          · rw [if_pos h]; exact ⟨[.fatalImbalance], by simp [emit]⟩
          · rw [if_neg h]
            cases hasCb with
            | true => exact ⟨[.lockDec, .userOpCb r], by simp [emit]⟩
            | false =>
                cases r with
                | none => exact ⟨[.lockDec], by simp [emit]⟩
                | some e2 =>
                    exact ⟨[.lockDec, .emitError e2], by simp [emit]⟩

theorem invokeFk_shape (k : FinishCb) (e : Option Err) :
    (∃ g e2, invokeFk k e = Ev.userBeginCb g e2) ∨
    (∃ g e2, invokeFk k e = Ev.userCommitCb g e2) ∨
    (∃ g e2, invokeFk k e = Ev.userRollbackCb g e2) := by
  cases k with
  | beginCb g => exact Or.inl ⟨g, e, rfl⟩
  | commitCb g => exact Or.inr (Or.inl ⟨g, e, rfl⟩)
  | commitErrCb g e0 => exact Or.inr (Or.inl ⟨g, some e0, rfl⟩)
  | rollbackCb g => exact Or.inr (Or.inr ⟨g, e, rfl⟩)

theorem invokeFk_ne_finish (k : FinishCb) (e : Option Err) (g2 : Nat) :
    Ev.finish g2 ≠ invokeFk k e := by
  cases k <;> simp [invokeFk]

theorem invokeFk_ne_own (k : FinishCb) (e : Option Err) (g2 : Nat) (h : Obj) :
    Ev.own g2 h ≠ invokeFk k e := by
  cases k <;> simp [invokeFk]

theorem invokeFk_ne_boundCall (k : FinishCb) (e : Option Err) (g2 : Nat)
    (b : Bool) : Ev.boundCall g2 b ≠ invokeFk k e := by
  cases k <;> simp [invokeFk]

theorem invokeFk_ne_issued (k : FinishCb) (e : Option Err) (st : Stmt)
    (g2 l : Nat) : Ev.issued st g2 l ≠ invokeFk k e := by
  cases k <;> simp [invokeFk]

theorem invokeFk_ne_commitFailed (k : FinishCb) (e : Option Err) (g2 : Nat)
    (e2 : Err) : Ev.commitFailed g2 e2 ≠ invokeFk k e := by
  cases k <;> simp [invokeFk]

theorem invokeFk_commitCb (k : FinishCb) (e : Option Err) (g2 : Nat)
    (e2 : Err) (h : invokeFk k e = Ev.userCommitCb g2 (some e2)) :
    (k = .commitCb g2 ∧ e = some e2) ∨ k = .commitErrCb g2 e2 := by
  cases k with
  | beginCb g => exact absurd h (by simp [invokeFk])
  | commitCb g =>
      simp [invokeFk] at h
      exact Or.inl ⟨by rw [h.1], by rw [h.2]⟩
  | commitErrCb g e0 =>
      simp [invokeFk] at h
      exact Or.inr (by rw [h.1, h.2])
  | rollbackCb g => exact absurd h (by simp [invokeFk])

theorem finishTransaction_base (g : Nat) (e : Option Err) (k : FinishCb)
    (s : St) (hb : Base s) (hg : g < s.nextGen) :
    Base (finishTransaction g e k s) := by
  by_cases hmem : QItem.txn ∈ s.queue
  · obtain ⟨q1, q2, hq, h1⟩ := mem_first_split _ _ hmem
    rw [finishTransaction_txn g e k s q1 q2 hq h1]
    by_cases h0 : s.lock + lockCount q1 = 0
    · rw [if_pos h0]
      refine ⟨?_, ?_, ?_, ?_, ?_, ?_, ?_, ?_, ?_, ?_, ?_, ?_⟩
      · refine traceOK_append (traceOK_append (traceOK_append
          (traceOK_append hb.tr ?_) ?_) ?_) ?_
        · intro e2 he2
          rw [List.mem_singleton] at he2
          subst he2; simp [evOK]
        · intro e2 he2
          obtain ⟨a, -, rfl⟩ := List.mem_map.mp he2
          simp [evOK]
        · intro e2 he2
          simp only [List.mem_cons, List.mem_singleton,
            List.not_mem_nil, or_false] at he2
          rcases he2 with rfl | rfl | rfl <;> simp [evOK]
        · intro e2 he2
          rw [List.mem_singleton] at he2
          subst he2; exact invokeFk_evOK k e
      · simp [hb.bal, lockCount]
      · intro g2
        simp [List.mem_append, hb.fin_iff g2, invokeFk_ne_finish,
          List.mem_map]
      · intro g2
        simp only [List.mem_append, List.mem_singleton, List.mem_cons,
          List.mem_map, List.not_mem_nil, or_false]
        simp [hb.own_iff g2, invokeFk_ne_own]
        omega
      · intro g2 h2 hm
        simp only [List.mem_append, List.mem_singleton, List.mem_cons,
          List.mem_map, List.not_mem_nil, or_false] at hm
        simp [invokeFk_ne_own] at hm
        rcases hm with hm | hm
        · exact hb.own_db g2 h2 hm
        · exact hm.2
      · intro g2 h2
        rw [Option.some_inj] at h2
        show g2 < s.nextGen + 1
        omega
      · intro g2 h2 hin
        rw [Option.some_inj] at h2
        subst h2
        rcases List.mem_append.mp hin with h3 | h3
        · have := hb.fin_lt _ h3
          omega
        · rw [List.mem_singleton] at h3
          omega
      · intro g2 h2
        rcases List.mem_append.mp h2 with h3 | h3
        · exact Nat.lt_succ_of_lt (hb.fin_lt _ h3)
        · rw [List.mem_singleton] at h3
          show g2 < s.nextGen + 1
          omega
      · intro c hc
        exact Nat.lt_succ_of_lt (hb.waits_lt c hc)
      · intro p hp
        rcases List.mem_append.mp hp with h3 | h3
        · exact Nat.lt_succ_of_lt (hb.exec_lt p h3)
        · rw [List.mem_singleton] at h3
          subst h3
          simp [execGen]
      · exact fun g2 k2 hk => hb.wr_shape g2 k2 hk
      · intro st2 g2 k2 hk
        rcases List.mem_append.mp hk with h3 | h3
        · exact hb.rc_shape st2 g2 k2 h3
        · rw [List.mem_singleton] at h3
          simp at h3
    · rw [if_neg h0]
      refine ⟨?_, ?_, ?_, ?_, ?_, ?_, ?_, ?_, ?_, ?_, ?_, ?_⟩
      · refine traceOK_append (traceOK_append (traceOK_append
          (traceOK_append hb.tr ?_) ?_) ?_) ?_
        · intro e2 he2
          rw [List.mem_singleton] at he2
          subst he2; simp [evOK]
        · intro e2 he2
          obtain ⟨a, -, rfl⟩ := List.mem_map.mp he2
          simp [evOK]
        · intro e2 he2
          simp only [List.mem_cons, List.mem_singleton,
            List.not_mem_nil, or_false] at he2
          rcases he2 with rfl | rfl <;> simp [evOK]
        · intro e2 he2
          rw [List.mem_singleton] at he2
          subst he2; exact invokeFk_evOK k e
      · simp [hb.bal, lockCount]
      · intro g2
        simp [List.mem_append, hb.fin_iff g2, invokeFk_ne_finish,
          List.mem_map]
      · intro g2
        simp only [List.mem_append, List.mem_singleton, List.mem_cons,
          List.mem_map, List.not_mem_nil, or_false]
        simp [hb.own_iff g2, invokeFk_ne_own]
        omega
      · intro g2 h2 hm
        simp only [List.mem_append, List.mem_singleton, List.mem_cons,
          List.mem_map, List.not_mem_nil, or_false] at hm
        simp [invokeFk_ne_own] at hm
        rcases hm with hm | hm
        · exact hb.own_db g2 h2 hm
        · exact hm.2
      · intro g2 h2
        rw [Option.some_inj] at h2
        show g2 < s.nextGen + 1
        omega
      · intro g2 h2 hin
        rw [Option.some_inj] at h2
        subst h2
        rcases List.mem_append.mp hin with h3 | h3
        · have := hb.fin_lt _ h3
          omega
        · rw [List.mem_singleton] at h3
          omega
      · intro g2 h2
        rcases List.mem_append.mp h2 with h3 | h3
        · exact Nat.lt_succ_of_lt (hb.fin_lt _ h3)
        · rw [List.mem_singleton] at h3
          show g2 < s.nextGen + 1
          omega
      · intro c hc
        rcases List.mem_append.mp hc with h3 | h3
        · exact Nat.lt_succ_of_lt (hb.waits_lt c h3)
        · rw [List.mem_singleton] at h3
          subst h3
          simp [waitGen]
      · intro p hp
        exact Nat.lt_succ_of_lt (hb.exec_lt p hp)
      · intro g2 k2 hk
        rcases List.mem_append.mp hk with h3 | h3
        · exact hb.wr_shape g2 k2 h3
        · rw [List.mem_singleton] at h3
          simp at h3
      · exact fun st2 g2 k2 hk => hb.rc_shape st2 g2 k2 hk
  · rw [finishTransaction_no_txn g e k s hmem]
    refine ⟨?_, ?_, ?_, ?_, ?_, ?_, ?_, ?_, ?_, ?_, ?_, ?_⟩
    · refine traceOK_append (traceOK_append
        (traceOK_append hb.tr ?_) ?_) ?_
      · intro e2 he2
        rw [List.mem_singleton] at he2
        subst he2; simp [evOK]
      · intro e2 he2
        obtain ⟨a, -, rfl⟩ := List.mem_map.mp he2
        simp [evOK]
      · intro e2 he2
        rw [List.mem_singleton] at he2
        subst he2; exact invokeFk_evOK k e
    · simp [hb.bal, lockCount]
    · intro g2
      simp [List.mem_append, hb.fin_iff g2, invokeFk_ne_finish,
        List.mem_map]
    · intro g2
      simp only [List.mem_append, List.mem_singleton, List.mem_cons,
        List.mem_map, List.not_mem_nil, or_false]
      simp [hb.own_iff g2, invokeFk_ne_own]
    · intro g2 h2 hm
      simp only [List.mem_append, List.mem_singleton, List.mem_cons,
        List.mem_map, List.not_mem_nil, or_false] at hm
      simp [invokeFk_ne_own] at hm
      exact hb.own_db g2 h2 hm
    · intro g2 h2
      simp at h2
    · intro g2 h2
      simp at h2
    · intro g2 h2
      rcases List.mem_append.mp h2 with h3 | h3
      · exact hb.fin_lt _ h3
      · rw [List.mem_singleton] at h3
        subst h3
        exact hg
    · exact fun c hc => hb.waits_lt c hc
    · exact fun p hp => hb.exec_lt p hp
    · exact fun g2 k2 hk => hb.wr_shape g2 k2 hk
    · exact fun st2 g2 k2 hk => hb.rc_shape st2 g2 k2 hk

theorem CcbP_ext {t L : List Ev} (hccb : CcbP t)
    (hL : ∀ g2 e2, Ev.userCommitCb g2 (some e2) ∈ L →
      Ev.commitFailed g2 e2 ∈ t ∧ Ev.issued .sRollback g2 0 ∈ t ∧
        Ev.finish g2 ∈ L) :
    CcbP (t ++ L) := by
  intro g2 e2 hm
  rcases List.mem_append.mp hm with h | h
  · rcases hccb g2 e2 h with h2 | ⟨h2, h3, h4⟩
    · exact Or.inl h2
    · exact Or.inr ⟨List.mem_append_left _ h2, List.mem_append_left _ h3,
        List.mem_append_left _ h4⟩
  · obtain ⟨h2, h3, h4⟩ := hL g2 e2 h
    exact Or.inr ⟨List.mem_append_left _ h2, List.mem_append_left _ h3,
      List.mem_append_right _ h4⟩

theorem finishTransaction_cond (g : Nat) (e : Option Err) (k : FinishCb)
    (s : St) (hb : Base s) (hg : g < s.nextGen)
    (honly : ∀ g2, g2 < s.nextGen → g2 ∉ s.finishedG → g2 = g)
    (hfins : finishers s = [])
    (hccb : CcbP s.trace)
    (hk : (k = FinishCb.commitCb g ∧ e = none) ∨ k = FinishCb.rollbackCb g ∨
      (∃ e0, k = FinishCb.commitErrCb g e0 ∧ Ev.commitFailed g e0 ∈ s.trace ∧
        Ev.issued .sRollback g 0 ∈ s.trace) ∨
      (∃ gb, k = FinishCb.beginCb gb)) :
    Cond (finishTransaction g e k s) := by
  obtain ⟨hW, hE⟩ := List.append_eq_nil.mp hfins
  have hWn := List.forall_none_of_filterMap_eq_nil hW
  have hEn := List.forall_none_of_filterMap_eq_nil hE
  have hucc : ∀ g2 e2, Ev.userCommitCb g2 (some e2) = invokeFk k e →
      Ev.commitFailed g2 e2 ∈ s.trace ∧ Ev.issued .sRollback g2 0 ∈ s.trace ∧
        g2 = g := by
    intro g2 e2 heq
    rcases invokeFk_commitCb k e g2 e2 heq.symm with ⟨hk1, hk2⟩ | hk1
    · rcases hk with ⟨hc1, hc2⟩ | hc1 | ⟨e0, hc1, -, -⟩ | ⟨gb, hc1⟩
      · rw [hc1] at hk1
        rw [hc2] at hk2
        cases hk2
      · rw [hc1] at hk1
        cases hk1
      · rw [hc1] at hk1
        cases hk1
      · rw [hc1] at hk1
        cases hk1
    · rcases hk with ⟨hc1, -⟩ | hc1 | ⟨e0, hc1, hcf, hir⟩ | ⟨gb, hc1⟩
      · rw [hc1] at hk1
        cases hk1
      · rw [hc1] at hk1
        cases hk1
      · rw [hc1] at hk1
        rw [FinishCb.commitErrCb.injEq] at hk1
        refine ⟨?_, ?_, hk1.1.symm⟩
        · rw [← hk1.1, ← hk1.2]
          exact hcf
        · rw [← hk1.1]
          exact hir
      · rw [hc1] at hk1
        cases hk1
  by_cases hmem : QItem.txn ∈ s.queue
  · obtain ⟨q1, q2, hq, h1⟩ := mem_first_split _ _ hmem
    rw [finishTransaction_txn g e k s q1 q2 hq h1]
    by_cases h0 : s.lock + lockCount q1 = 0
    · rw [if_pos h0]
      have hfp : s.waits.filterMap waitFin ++
          (s.inflightExec ++ [(Stmt.sBegin, ExecCont.beginCont s.nextGen)]
            ).filterMap (fun p => execFin p.2) = [] := by
        rw [hW, List.filterMap_append, hE]
        rfl
      refine ⟨?_, ?_, ?_, ?_, ?_, ?_⟩
      · intro g2 h2 hin
        rcases Nat.lt_succ_iff_lt_or_eq.mp h2 with h3 | h3
        · exfalso
          have h4 : g2 = g := honly g2 h3
            (fun hf => hin (List.mem_append_left _ hf))
          exact hin (List.mem_append_right _ (by rw [h4]; simp))
        · show some s.nextGen = some g2
          rw [h3]
      · intro g2 hg2
        simp only [finishers] at hg2
        rw [hfp] at hg2
        cases hg2
      · simp only [finishers]
        rw [hfp]
        simp
      · intro g2 g3 e2 hwr
        have := hWn _ hwr
        simp [waitFin] at this
      · intro st2 g2 g3 e2 hx
        rcases List.mem_append.mp hx with h3 | h3
        · have := hEn _ h3
          simp [execFin] at this
        · rw [List.mem_singleton] at h3
          simp at h3
      · simp only [List.append_assoc]
        refine CcbP_ext hccb ?_
        intro g2 e2 hm
        simp only [List.mem_append, List.mem_singleton, List.mem_cons,
          List.mem_map, List.not_mem_nil, or_false] at hm
        rcases hm with hm | hm | hm | hm
        · cases hm
        · obtain ⟨a, -, ha⟩ := hm
          cases ha
        · rcases hm with hm | hm | hm <;> cases hm
        · obtain ⟨h2, h3, h4⟩ := hucc g2 e2 hm
          exact ⟨h2, h3, by rw [h4]; simp⟩
    · rw [if_neg h0]
      have hfp : (s.waits ++ [WaitCont.wBegin s.nextGen]).filterMap waitFin ++
          s.inflightExec.filterMap (fun p => execFin p.2) = [] := by
        rw [List.filterMap_append, hW, hE]
        rfl
      refine ⟨?_, ?_, ?_, ?_, ?_, ?_⟩
      · intro g2 h2 hin
        rcases Nat.lt_succ_iff_lt_or_eq.mp h2 with h3 | h3
        · exfalso
          have h4 : g2 = g := honly g2 h3
            (fun hf => hin (List.mem_append_left _ hf))
          exact hin (List.mem_append_right _ (by rw [h4]; simp))
        · show some s.nextGen = some g2
          rw [h3]
      · intro g2 hg2
        simp only [finishers] at hg2
        rw [hfp] at hg2
        cases hg2
      · simp only [finishers]
        rw [hfp]
        simp
      · intro g2 g3 e2 hwr
        rcases List.mem_append.mp hwr with h3 | h3
        · have := hWn _ h3
          simp [waitFin] at this
        · rw [List.mem_singleton] at h3
          cases h3
      · intro st2 g2 g3 e2 hx
        have := hEn _ hx
        simp [execFin] at this
      · simp only [List.append_assoc]
        refine CcbP_ext hccb ?_
        intro g2 e2 hm
        simp only [List.mem_append, List.mem_singleton, List.mem_cons,
          List.mem_map, List.not_mem_nil, or_false] at hm
        rcases hm with hm | hm | hm | hm
        · cases hm
        · obtain ⟨a, -, ha⟩ := hm
          cases ha
        · rcases hm with hm | hm <;> cases hm
        · obtain ⟨h2, h3, h4⟩ := hucc g2 e2 hm
          exact ⟨h2, h3, by rw [h4]; simp⟩
  · rw [finishTransaction_no_txn g e k s hmem]
    have hfp := hfins
    simp only [finishers] at hfp
    refine ⟨?_, ?_, ?_, ?_, ?_, ?_⟩
    · intro g2 h2 hin
      exfalso
      have h4 : g2 = g := honly g2 h2
        (fun hf => hin (List.mem_append_left _ hf))
      exact hin (List.mem_append_right _ (by rw [h4]; simp))
    · intro g2 hg2
      simp only [finishers] at hg2
      rw [hfp] at hg2
      cases hg2
    · simp only [finishers]
      rw [hfp]
      simp
    · intro g2 g3 e2 hwr
      have := hWn _ hwr
      simp [waitFin] at this
    · intro st2 g2 g3 e2 hx
      have := hEn _ hx
      simp [execFin] at this
    · simp only [List.append_assoc]
      refine CcbP_ext hccb ?_
      intro g2 e2 hm
      simp only [List.mem_append, List.mem_singleton, List.mem_cons,
        List.mem_map, List.not_mem_nil, or_false] at hm
      rcases hm with hm | hm | hm
      · cases hm
      · obtain ⟨a, -, ha⟩ := hm
        cases ha
      · obtain ⟨h2, h3, h4⟩ := hucc g2 e2 hm
        exact ⟨h2, h3, by rw [h4]; simp⟩

theorem Base_frame (s : St) (hb : Base s) (lk : Nat) (qu : List QItem)
    (il : List Bool) (ws : List WaitCont) (ie : List (Stmt × ExecCont))
    (L : List Ev)
    (hok : ∀ e ∈ L, evOK e)
    (hbal : lk = il.length)
    (hfin : ∀ g2, Ev.finish g2 ∈ L → False)
    (hown : ∀ g2 h, Ev.own g2 h ∈ L → False)
    (hwlt : ∀ c ∈ ws, waitGen c < s.nextGen)
    (hwr : ∀ g k, WaitCont.wRollback g k ∈ ws →
      k = FinishCb.rollbackCb g ∨ ∃ e, k = FinishCb.commitErrCb g e)
    (helt : ∀ p ∈ ie, execGen p.2 < s.nextGen)
    (hrc : ∀ st g k, (st, ExecCont.rollbackCont g k) ∈ ie →
      k = FinishCb.rollbackCb g ∨ ∃ e, k = FinishCb.commitErrCb g e) :
    Base { s with lock := lk, queue := qu, inflightLock := il, waits := ws,
                  inflightExec := ie, trace := s.trace ++ L } := by
  refine ⟨?_, ?_, ?_, ?_, ?_, ?_, ?_, ?_, ?_, ?_, ?_, ?_⟩
  · exact traceOK_append hb.tr hok
  · exact hbal
  · intro g2
    constructor
    · intro h2
      exact List.mem_append_left _ ((hb.fin_iff g2).mp h2)
    · intro h2
      rcases List.mem_append.mp h2 with h3 | h3
      · exact (hb.fin_iff g2).mpr h3
      · exact absurd h3 (hfin g2)
  · intro g2
    constructor
    · intro h2
      rcases List.mem_append.mp h2 with h3 | h3
      · exact (hb.own_iff g2).mp h3
      · exact absurd h3 (hown g2 .db)
    · intro h2
      exact List.mem_append_left _ ((hb.own_iff g2).mpr h2)
  · intro g2 h2 hm
    rcases List.mem_append.mp hm with h3 | h3
    · exact hb.own_db g2 h2 h3
    · exact absurd h3 (hown g2 h2)
  · exact fun g2 h2 => hb.cur_lt g2 h2
  · exact fun g2 h2 => hb.cur_unfin g2 h2
  · exact fun g2 h2 => hb.fin_lt g2 h2
  · exact hwlt
  · exact helt
  · exact hwr
  · exact hrc

theorem Base_execTail (s : St) (hb : Base s) (p : Stmt × ExecCont)
    (rest : List (Stmt × ExecCont)) (hi : s.inflightExec = p :: rest) :
    Base { s with inflightExec := rest } := by
  refine ⟨hb.tr, hb.bal, hb.fin_iff, hb.own_iff, hb.own_db, hb.cur_lt,
    hb.cur_unfin, hb.fin_lt, hb.waits_lt, ?_, hb.wr_shape, ?_⟩
  · intro p2 hp
    exact hb.exec_lt p2 (by rw [hi]; exact List.mem_cons_of_mem _ hp)
  · intro st2 g2 k2 hk
    exact hb.rc_shape st2 g2 k2 (by rw [hi]; exact List.mem_cons_of_mem _ hk)

theorem beginTransaction_some (s : St) (g : Nat) (hc : s.cur = some g) :
    beginTransaction s =
      emit (.enqueued .txn) { s with queue := s.queue ++ [.txn] } := by
  rw [beginTransaction, hc]

theorem beginTransaction_none (s : St) (hc : s.cur = none) :
    beginTransaction s =
      (if s.lock = 0 then
        { s with cur := some s.nextGen, nextGen := s.nextGen + 1,
                 inflightExec :=
                   s.inflightExec ++ [(.sBegin, .beginCont s.nextGen)],
                 trace := s.trace ++
                   [.own s.nextGen .db, .issued .sBegin s.nextGen 0] }
      else
        { s with cur := some s.nextGen, nextGen := s.nextGen + 1,
                 waits := s.waits ++ [.wBegin s.nextGen],
                 trace := s.trace ++ [.own s.nextGen .db] }) := by
  obtain ⟨lk, qu, cu, ng, fg, il, ie, ws, tr⟩ := s
  simp only [St.cur] at hc
  subst hc
  rw [beginTransaction]
  by_cases h0 : lk = 0
  · simp [waitGate, h0, runWaitContNone, issue, emit]
  · simp [waitGate, h0, emit]

theorem callOp_none (s : St) (lk c : Bool) (hc : s.cur = none) :
    callOp lk c s =
      (if lk then
        emit (.opDispatched true c)
          { s with lock := s.lock + 1,
                   inflightLock := s.inflightLock ++ [c] }
      else emit (.opDispatched false c) s) := by
  rw [callOp, hc]

theorem callOp_some (s : St) (lk c : Bool) (g : Nat) (hc : s.cur = some g) :
    callOp lk c s =
      emit (.enqueued (if lk then QItem.lock c else .simple))
        { s with queue := s.queue ++ [if lk then QItem.lock c else .simple] } := by
  rw [callOp, hc]

theorem beginTransaction_base (s : St) (hb : Base s) :
    Base (beginTransaction s) := by
  cases hc : s.cur with
  | some g =>
      rw [beginTransaction_some s g hc]
      exact Base_frame s hb s.lock (s.queue ++ [.txn]) s.inflightLock
        s.waits s.inflightExec [.enqueued .txn]
        (by intro e2 he2; rw [List.mem_singleton] at he2; subst he2
            simp [evOK])
        hb.bal (by intro g2 h2; rw [List.mem_singleton] at h2; cases h2)
        (by intro g2 h h2; rw [List.mem_singleton] at h2; cases h2)
        hb.waits_lt hb.wr_shape hb.exec_lt hb.rc_shape
  | none =>
      rw [beginTransaction_none s hc]
      by_cases h0 : s.lock = 0
      · rw [if_pos h0]
        refine ⟨?_, ?_, ?_, ?_, ?_, ?_, ?_, ?_, ?_, ?_, ?_, ?_⟩
        · refine traceOK_append hb.tr ?_
          intro e2 he2
          simp only [List.mem_cons, List.mem_singleton,
            List.not_mem_nil, or_false] at he2
          rcases he2 with rfl | rfl
          · simp [evOK]
          · simp [evOK, h0]
        · exact hb.bal
        · intro g2
          constructor
          · intro h2
            exact List.mem_append_left _ ((hb.fin_iff g2).mp h2)
          · intro h2
            rcases List.mem_append.mp h2 with h3 | h3
            · exact (hb.fin_iff g2).mpr h3
            · simp at h3
        · intro g2
          constructor
          · intro h2
            rcases List.mem_append.mp h2 with h3 | h3
            · exact Nat.lt_succ_of_lt ((hb.own_iff g2).mp h3)
            · simp at h3
              show g2 < s.nextGen + 1
              omega
          · intro h2
            rcases Nat.lt_succ_iff_lt_or_eq.mp h2 with h3 | h3
            · exact List.mem_append_left _ ((hb.own_iff g2).mpr h3)
            · subst h3
              simp
        · intro g2 h2 hm
          rcases List.mem_append.mp hm with h3 | h3
          · exact hb.own_db g2 h2 h3
          · simp at h3
            exact h3.2
        · intro g2 h2
          rw [Option.some_inj] at h2
          show g2 < s.nextGen + 1
          omega
        · intro g2 h2 hin
          rw [Option.some_inj] at h2
          subst h2
          have := hb.fin_lt _ hin
          omega
        · intro g2 h2
          exact Nat.lt_succ_of_lt (hb.fin_lt g2 h2)
        · intro c hcw
          exact Nat.lt_succ_of_lt (hb.waits_lt c hcw)
        · intro p hp
          rcases List.mem_append.mp hp with h3 | h3
          · exact Nat.lt_succ_of_lt (hb.exec_lt p h3)
          · rw [List.mem_singleton] at h3
            subst h3
            simp [execGen]
        · exact hb.wr_shape
        · intro st2 g2 k2 hk
          rcases List.mem_append.mp hk with h3 | h3
          · exact hb.rc_shape st2 g2 k2 h3
          · rw [List.mem_singleton] at h3
            simp at h3
      · rw [if_neg h0]
        refine ⟨?_, ?_, ?_, ?_, ?_, ?_, ?_, ?_, ?_, ?_, ?_, ?_⟩
        · refine traceOK_append hb.tr ?_
          intro e2 he2
          rw [List.mem_singleton] at he2
          subst he2
          simp [evOK]
        · exact hb.bal
        · intro g2
          constructor
          · intro h2
            exact List.mem_append_left _ ((hb.fin_iff g2).mp h2)
          · intro h2
            rcases List.mem_append.mp h2 with h3 | h3
            · exact (hb.fin_iff g2).mpr h3
            · simp at h3
        · intro g2
          constructor
          · intro h2
            rcases List.mem_append.mp h2 with h3 | h3
            · exact Nat.lt_succ_of_lt ((hb.own_iff g2).mp h3)
            · simp at h3
              show g2 < s.nextGen + 1
              omega
          · intro h2
            rcases Nat.lt_succ_iff_lt_or_eq.mp h2 with h3 | h3
            · exact List.mem_append_left _ ((hb.own_iff g2).mpr h3)
            · subst h3
              simp
        · intro g2 h2 hm
          rcases List.mem_append.mp hm with h3 | h3
          · exact hb.own_db g2 h2 h3
          · simp at h3
            exact h3.2
        · intro g2 h2
          rw [Option.some_inj] at h2
          show g2 < s.nextGen + 1
          omega
        · intro g2 h2 hin
          rw [Option.some_inj] at h2
          subst h2
          have := hb.fin_lt _ hin
          omega
        · intro g2 h2
          exact Nat.lt_succ_of_lt (hb.fin_lt g2 h2)
        · intro c hcw
          rcases List.mem_append.mp hcw with h3 | h3
          · exact Nat.lt_succ_of_lt (hb.waits_lt c h3)
          · rw [List.mem_singleton] at h3
            subst h3
            simp [waitGen]
        · intro p hp
          exact Nat.lt_succ_of_lt (hb.exec_lt p hp)
        · intro g2 k2 hk
          rcases List.mem_append.mp hk with h3 | h3
          · exact hb.wr_shape g2 k2 h3
          · rw [List.mem_singleton] at h3
            simp at h3
        · exact hb.rc_shape

theorem Base_emit (s : St) (hb : Base s) (e : Ev) (hok : evOK e)
    (hfin : ∀ g, e ≠ .finish g) (hown : ∀ g h, e ≠ .own g h) :
    Base (emit e s) := by
  have := Base_frame s hb s.lock s.queue s.inflightLock s.waits
    s.inflightExec [e]
    (by intro e2 he2; rw [List.mem_singleton] at he2; subst he2; exact hok)
    hb.bal
    (by intro g2 h2; rw [List.mem_singleton] at h2; exact hfin g2 h2.symm)
    (by intro g2 h h2; rw [List.mem_singleton] at h2; exact hown g2 h h2.symm)
    hb.waits_lt hb.wr_shape hb.exec_lt hb.rc_shape
  exact this

theorem waitGate_base (s : St) (hb : Base s) (c : WaitCont)
    (hlt : waitGen c < s.nextGen)
    (hshape : ∀ g k, c = WaitCont.wRollback g k →
      k = FinishCb.rollbackCb g ∨ ∃ e, k = FinishCb.commitErrCb g e) :
    Base (waitGate c s) := by
  rw [waitGate]
  by_cases h0 : s.lock = 0
  · rw [if_pos h0]
    cases c with
    | wBegin g =>
        rw [runWaitContNone]
        exact Base_frame s hb s.lock s.queue s.inflightLock s.waits
          (s.inflightExec ++ [(.sBegin, .beginCont g)])
          [.issued .sBegin g s.lock]
          (by intro e2 he2; rw [List.mem_singleton] at he2; subst he2
              simp [evOK, h0])
          hb.bal
          (by intro g2 h2; rw [List.mem_singleton] at h2; cases h2)
          (by intro g2 h h2; rw [List.mem_singleton] at h2; cases h2)
          hb.waits_lt hb.wr_shape
          (by intro p hp
              rcases List.mem_append.mp hp with h3 | h3
              · exact hb.exec_lt p h3
              · rw [List.mem_singleton] at h3
                subst h3
                exact hlt)
          (by intro st2 g2 k2 hk
              rcases List.mem_append.mp hk with h3 | h3
              · exact hb.rc_shape st2 g2 k2 h3
              · rw [List.mem_singleton] at h3
                simp at h3)
    | wCommit g =>
        rw [runWaitContNone]
        exact Base_frame s hb s.lock s.queue s.inflightLock s.waits
          (s.inflightExec ++ [(.sCommit, .commitCont g)])
          [.issued .sCommit g s.lock]
          (by intro e2 he2; rw [List.mem_singleton] at he2; subst he2
              simp [evOK, h0])
          hb.bal
          (by intro g2 h2; rw [List.mem_singleton] at h2; cases h2)
          (by intro g2 h h2; rw [List.mem_singleton] at h2; cases h2)
          hb.waits_lt hb.wr_shape
          (by intro p hp
              rcases List.mem_append.mp hp with h3 | h3
              · exact hb.exec_lt p h3
              · rw [List.mem_singleton] at h3
                subst h3
                exact hlt)
          (by intro st2 g2 k2 hk
              rcases List.mem_append.mp hk with h3 | h3
              · exact hb.rc_shape st2 g2 k2 h3
              · rw [List.mem_singleton] at h3
                simp at h3)
    | wRollback g k =>
        rw [runWaitContNone]
        exact Base_frame s hb s.lock s.queue s.inflightLock s.waits
          (s.inflightExec ++ [(.sRollback, .rollbackCont g k)])
          [.issued .sRollback g s.lock]
          (by intro e2 he2; rw [List.mem_singleton] at he2; subst he2
              simp [evOK, h0])
          hb.bal
          (by intro g2 h2; rw [List.mem_singleton] at h2; cases h2)
          (by intro g2 h h2; rw [List.mem_singleton] at h2; cases h2)
          hb.waits_lt hb.wr_shape
          (by intro p hp
              rcases List.mem_append.mp hp with h3 | h3
              · exact hb.exec_lt p h3
              · rw [List.mem_singleton] at h3
                subst h3
                exact hlt)
          (by intro st2 g2 k2 hk
              rcases List.mem_append.mp hk with h3 | h3
              · exact hb.rc_shape st2 g2 k2 h3
              · rw [List.mem_singleton] at h3
                rw [Prod.mk.injEq] at h3
                have h4 := h3.2
                rw [ExecCont.rollbackCont.injEq] at h4
                rw [h4.1, h4.2]
                exact hshape g k rfl)
  · rw [if_neg h0]
    refine ⟨hb.tr, hb.bal, hb.fin_iff, hb.own_iff, hb.own_db, hb.cur_lt,
      hb.cur_unfin, hb.fin_lt, ?_, hb.exec_lt, ?_, hb.rc_shape⟩
    · intro c2 hc2
      rcases List.mem_append.mp hc2 with h3 | h3
      · exact hb.waits_lt c2 h3
      · rw [List.mem_singleton] at h3
        subst h3
        exact hlt
    · intro g2 k2 hk
      rcases List.mem_append.mp hk with h3 | h3
      · exact hb.wr_shape g2 k2 h3
      · rw [List.mem_singleton] at h3
        exact hshape g2 k2 h3.symm

theorem step_base (s : St) (a : Act) (hb : Base s) : Base (step s a) := by
  cases a with
  | callOp lk c =>
      rw [step]
      cases hc : s.cur with
      | none =>
          rw [callOp_none s lk c hc]
          cases lk with
          | true =>
              rw [if_pos rfl]
              exact Base_frame s hb (s.lock + 1) s.queue
                (s.inflightLock ++ [c]) s.waits s.inflightExec
                [.opDispatched true c]
                (by intro e2 he2; rw [List.mem_singleton] at he2
                    subst he2; simp [evOK])
                (by simp [hb.bal])
                (by intro g2 h2; rw [List.mem_singleton] at h2; cases h2)
                (by intro g2 h h2; rw [List.mem_singleton] at h2; cases h2)
                hb.waits_lt hb.wr_shape hb.exec_lt hb.rc_shape
          | false =>
              rw [if_neg (by simp)]
              exact Base_emit s hb _ (by simp [evOK]) (by simp) (by simp)
      | some g =>
          rw [callOp_some s lk c g hc]
          exact Base_frame s hb s.lock
            (s.queue ++ [if lk then QItem.lock c else .simple])
            s.inflightLock s.waits s.inflightExec
            [.enqueued (if lk then QItem.lock c else .simple)]
            (by intro e2 he2; rw [List.mem_singleton] at he2
                subst he2; simp [evOK])
            hb.bal
            (by intro g2 h2; rw [List.mem_singleton] at h2; cases h2)
            (by intro g2 h h2; rw [List.mem_singleton] at h2; cases h2)
            hb.waits_lt hb.wr_shape hb.exec_lt hb.rc_shape
  | callTr =>
      rw [step]
      exact Base_emit s hb _ (by simp [evOK]) (by simp) (by simp)
  | callBegin =>
      rw [step]
      exact beginTransaction_base s hb
  | callCommit g =>
      rw [step]
      by_cases hgn : g < s.nextGen
      · rw [if_pos hgn, commitUser]
        by_cases hf : g ∈ s.finishedG
        · rw [if_pos hf]
          exact Base_emit s hb _ (by simp [evOK]) (by simp) (by simp)
        · rw [if_neg hf]
          have hb2 : Base (emit (.boundCall g true) s) :=
            Base_emit s hb _ (by simp [evOK]) (by simp) (by simp)
          exact waitGate_base _ hb2 _ hgn (by intro g2 k2 h2; cases h2)
      · rw [if_neg hgn]
        exact hb
  | callRollback g =>
      rw [step]
      by_cases hgn : g < s.nextGen
      · rw [if_pos hgn, rollbackUser]
        by_cases hf : g ∈ s.finishedG
        · rw [if_pos hf]
          exact Base_emit s hb _ (by simp [evOK]) (by simp) (by simp)
        · rw [if_neg hf]
          have hb2 : Base (emit (.boundCall g false) s) :=
            Base_emit s hb _ (by simp [evOK]) (by simp) (by simp)
          refine waitGate_base _ hb2 _ hgn ?_
          intro g2 k2 h2
          rw [WaitCont.wRollback.injEq] at h2
          rw [← h2.1, ← h2.2]
          exact Or.inl rfl
      · rw [if_neg hgn]
        exact hb
  | fireWait i =>
      rw [step, fireWait]
      by_cases h0 : s.lock = 0
      · rw [if_pos h0]
        cases hw : s.waits[i]? with
        | none => exact hb
        | some c =>
            show Base (runWaitContNone c
              { s with waits := s.waits.eraseIdx i })
            have hcm : c ∈ s.waits := List.getElem?_mem hw
            have hb2 : Base { s with waits := s.waits.eraseIdx i } := by
              refine ⟨hb.tr, hb.bal, hb.fin_iff, hb.own_iff, hb.own_db,
                hb.cur_lt, hb.cur_unfin, hb.fin_lt, ?_, hb.exec_lt, ?_,
                hb.rc_shape⟩
              · intro c2 hc2
                exact hb.waits_lt c2 (List.mem_of_mem_eraseIdx hc2)
              · intro g2 k2 hk
                exact hb.wr_shape g2 k2 (List.mem_of_mem_eraseIdx hk)
            cases c with
            | wBegin g =>
                rw [runWaitContNone]
                exact Base_frame _ hb2 s.lock s.queue s.inflightLock
                  (s.waits.eraseIdx i)
                  (s.inflightExec ++ [(.sBegin, .beginCont g)])
                  [.issued .sBegin g s.lock]
                  (by intro e2 he2; rw [List.mem_singleton] at he2
                      subst he2; simp [evOK, h0])
                  hb.bal
                  (by intro g2 h2; rw [List.mem_singleton] at h2; cases h2)
                  (by intro g2 h h2; rw [List.mem_singleton] at h2
                      cases h2)
                  (by intro c2 hc2
                      exact hb.waits_lt c2 (List.mem_of_mem_eraseIdx hc2))
                  (by intro g2 k2 hk
                      exact hb.wr_shape g2 k2 (List.mem_of_mem_eraseIdx hk))
                  (by intro p hp
                      rcases List.mem_append.mp hp with h3 | h3
                      · exact hb.exec_lt p h3
                      · rw [List.mem_singleton] at h3
                        subst h3
                        exact hb.waits_lt _ hcm)
                  (by intro st2 g2 k2 hk
                      rcases List.mem_append.mp hk with h3 | h3
                      · exact hb.rc_shape st2 g2 k2 h3
                      · rw [List.mem_singleton] at h3
                        simp at h3)
            | wCommit g =>
                rw [runWaitContNone]
                exact Base_frame _ hb2 s.lock s.queue s.inflightLock
                  (s.waits.eraseIdx i)
                  (s.inflightExec ++ [(.sCommit, .commitCont g)])
                  [.issued .sCommit g s.lock]
                  (by intro e2 he2; rw [List.mem_singleton] at he2
                      subst he2; simp [evOK, h0])
                  hb.bal
                  (by intro g2 h2; rw [List.mem_singleton] at h2; cases h2)
                  (by intro g2 h h2; rw [List.mem_singleton] at h2
                      cases h2)
                  (by intro c2 hc2
                      exact hb.waits_lt c2 (List.mem_of_mem_eraseIdx hc2))
                  (by intro g2 k2 hk
                      exact hb.wr_shape g2 k2 (List.mem_of_mem_eraseIdx hk))
                  (by intro p hp
                      rcases List.mem_append.mp hp with h3 | h3
                      · exact hb.exec_lt p h3
                      · rw [List.mem_singleton] at h3
                        subst h3
                        exact hb.waits_lt _ hcm)
                  (by intro st2 g2 k2 hk
                      rcases List.mem_append.mp hk with h3 | h3
                      · exact hb.rc_shape st2 g2 k2 h3
                      · rw [List.mem_singleton] at h3
                        simp at h3)
            | wRollback g k =>
                rw [runWaitContNone]
                exact Base_frame _ hb2 s.lock s.queue s.inflightLock
                  (s.waits.eraseIdx i)
                  (s.inflightExec ++ [(.sRollback, .rollbackCont g k)])
                  [.issued .sRollback g s.lock]
                  (by intro e2 he2; rw [List.mem_singleton] at he2
                      subst he2; simp [evOK, h0])
                  hb.bal
                  (by intro g2 h2; rw [List.mem_singleton] at h2; cases h2)
                  (by intro g2 h h2; rw [List.mem_singleton] at h2
                      cases h2)
                  (by intro c2 hc2
                      exact hb.waits_lt c2 (List.mem_of_mem_eraseIdx hc2))
                  (by intro g2 k2 hk
                      exact hb.wr_shape g2 k2 (List.mem_of_mem_eraseIdx hk))
                  (by intro p hp
                      rcases List.mem_append.mp hp with h3 | h3
                      · exact hb.exec_lt p h3
                      · rw [List.mem_singleton] at h3
                        subst h3
                        exact hb.waits_lt _ hcm)
                  (by intro st2 g2 k2 hk
                      rcases List.mem_append.mp hk with h3 | h3
                      · exact hb.rc_shape st2 g2 k2 h3
                      · rw [List.mem_singleton] at h3
                        rw [Prod.mk.injEq] at h3
                        have h4 := h3.2
                        rw [ExecCont.rollbackCont.injEq] at h4
                        rw [h4.1, h4.2]
                        exact hb.wr_shape g k hcm)
      · rw [if_neg h0]
        exact hb
  | execDone r =>
      rw [step, execDone]
      cases he : s.inflightExec with
      | nil => exact hb
      | cons p rest =>
          obtain ⟨st1, k1⟩ := p
          show Base (runExecCont k1 r { s with inflightExec := rest })
          have hb2 : Base { s with inflightExec := rest } :=
            Base_execTail s hb (st1, k1) rest he
          have hglt : execGen k1 < s.nextGen :=
            hb.exec_lt (st1, k1) (by rw [he]; exact List.mem_cons_self _ _)
          cases k1 with
          | beginCont g =>
              cases r with
              | none =>
                  rw [runExecCont]
                  exact Base_emit _ hb2 _ (by simp [evOK]) (by simp)
                    (by simp)
              | some e =>
                  rw [runExecCont]
                  exact Base_emit _ hb2 _ (by simp [evOK]) (by simp)
                    (by simp)
          | commitCont g =>
              cases r with
              | none =>
                  rw [runExecCont]
                  exact finishTransaction_base g none (.commitCb g) _ hb2
                    hglt
              | some e =>
                  rw [runExecCont]
                  have hb3 : Base (emit (.commitFailed g e)
                      { s with inflightExec := rest }) :=
                    Base_emit _ hb2 _ (by simp [evOK]) (by simp) (by simp)
                  rw [rollbackBody]
                  by_cases hf : g ∈ (emit (.commitFailed g e)
                      { s with inflightExec := rest }).finishedG
                  · rw [if_pos hf]
                    exact Base_emit _ hb3 _ (invokeFk_evOK _ _)
                      (fun g2 => (invokeFk_ne_finish _ _ g2).symm)
                      (fun g2 h => (invokeFk_ne_own _ _ g2 h).symm)
                  · rw [if_neg hf]
                    refine waitGate_base _ hb3 _ hglt ?_
                    intro g2 k2 h2
                    rw [WaitCont.wRollback.injEq] at h2
                    rw [← h2.1, ← h2.2]
                    exact Or.inr ⟨e, rfl⟩
          | rollbackCont g k =>
              rw [runExecCont]
              exact finishTransaction_base g r k _ hb2 hglt
  | lockDone r =>
      rw [step, lockDone]
      split
      · exact hb
      · next hasCb rest heq =>
          by_cases h : s.lock < 1
          · exfalso
            rw [hb.bal, heq] at h
            simp at h
          · rw [if_neg h]
            have hbal2 : s.lock - 1 = rest.length := by
              rw [hb.bal, heq]
              simp
            have hbd : Base (emit Ev.lockDec
                { s with lock := s.lock - 1, inflightLock := rest }) :=
              Base_frame s hb (s.lock - 1) s.queue rest s.waits
                s.inflightExec [.lockDec]
                (by intro e2 he2; rw [List.mem_singleton] at he2
                    subst he2; simp [evOK])
                hbal2
                (by intro g2 h2; rw [List.mem_singleton] at h2; cases h2)
                (by intro g2 hh h2; rw [List.mem_singleton] at h2
                    cases h2)
                hb.waits_lt hb.wr_shape hb.exec_lt hb.rc_shape
            cases hasCb with
            | true =>
                exact Base_emit _ hbd _ (by simp [evOK]) (by simp) (by simp)
            | false =>
                cases r with
                | none => exact hbd
                | some e2 =>
                    exact Base_emit _ hbd _ (by simp [evOK]) (by simp)
                      (by simp)

theorem Cond_frame (s : St) (hc : Cond s) (lk : Nat) (qu : List QItem)
    (il : List Bool) (L : List Ev)
    (hccb2 : CcbP (s.trace ++ L)) :
    Cond { s with lock := lk, queue := qu, inflightLock := il,
                  trace := s.trace ++ L } := by
  refine ⟨hc.unfin_cur, ?_, hc.fins_one, ?_, ?_, hccb2⟩
  · intro g2 hg2
    obtain ⟨h1, h2⟩ := hc.fins_cur g2 hg2
    exact ⟨h1, by rw [boundGens_append]; exact List.mem_append_left _ h2⟩
  · intro g2 g3 e2 hwr
    obtain ⟨h1, h2⟩ := hc.cf_wait g2 g3 e2 hwr
    exact ⟨h1, List.mem_append_left _ h2⟩
  · intro st2 g2 g3 e2 hx
    obtain ⟨h1, h2, h3⟩ := hc.cf_exec st2 g2 g3 e2 hx
    exact ⟨h1, List.mem_append_left _ h2, List.mem_append_left _ h3⟩

theorem CcbP_already (t : List Ev) (h : CcbP t) (g : Nat) :
    CcbP (t ++ [.userCommitCb g (some .alreadyFinished)]) := by
  intro g2 e2 hm
  rcases List.mem_append.mp hm with h2 | h2
  · rcases h g2 e2 h2 with h3 | ⟨h3, h4, h5⟩
    · exact Or.inl h3
    · exact Or.inr ⟨List.mem_append_left _ h3, List.mem_append_left _ h4,
        List.mem_append_left _ h5⟩
  · rw [List.mem_singleton] at h2
    rw [Ev.userCommitCb.injEq] at h2
    rw [Option.some_inj] at h2
    exact Or.inl h2.2

theorem nodup_append_singleton_not_mem {l : List Nat} {g : Nat}
    (h : (l ++ [g]).Nodup) : g ∉ l := by
  intro hm
  rw [List.nodup_append] at h
  exact h.2.2 hm (List.mem_singleton_self g)

theorem cond_callOp (s : St) (lk c : Bool) (hc : Cond s) :
    Cond (callOp lk c s) := by
  cases hcn : s.cur with
  | none =>
      rw [callOp_none s lk c hcn]
      cases lk with
      | true =>
          rw [if_pos rfl]
          exact Cond_frame s hc (s.lock + 1) s.queue
            (s.inflightLock ++ [c]) [.opDispatched true c]
            (CcbP_mono hc.ccb
              (by intro g2 e2 hm; rw [List.mem_singleton] at hm; cases hm))
      | false =>
          rw [if_neg (by simp)]
          exact Cond_frame s hc s.lock s.queue s.inflightLock
            [.opDispatched false c]
            (CcbP_mono hc.ccb
              (by intro g2 e2 hm; rw [List.mem_singleton] at hm; cases hm))
  | some g =>
      rw [callOp_some s lk c g hcn]
      exact Cond_frame s hc s.lock
        (s.queue ++ [if lk then QItem.lock c else .simple]) s.inflightLock
        [.enqueued (if lk then QItem.lock c else .simple)]
        (CcbP_mono hc.ccb
          (by intro g2 e2 hm; rw [List.mem_singleton] at hm; cases hm))

theorem cond_lockDone (s : St) (r : Option Err) (hb : Base s) (hc : Cond s) :
    Cond (lockDone r s) := by
  rw [lockDone]
  split
  · exact hc
  · next hasCb rest heq =>
      by_cases h : s.lock < 1
      · exfalso
        rw [hb.bal, heq] at h
        simp at h
      · rw [if_neg h]
        have hc1 : Cond (emit Ev.lockDec
            { s with lock := s.lock - 1, inflightLock := rest }) :=
          Cond_frame s hc (s.lock - 1) s.queue rest [.lockDec]
            (CcbP_mono hc.ccb
              (by intro g2 e2 hm; rw [List.mem_singleton] at hm; cases hm))
        cases hasCb with
        | true =>
            exact Cond_frame _ hc1 _ _ _ [.userOpCb r]
              (CcbP_mono hc1.ccb
                (by intro g2 e2 hm; rw [List.mem_singleton] at hm
                    cases hm))
        | false =>
            cases r with
            | none => exact hc1
            | some e2 =>
                exact Cond_frame _ hc1 _ _ _ [.emitError e2]
                  (CcbP_mono hc1.ccb
                    (by intro g2 e2 hm; rw [List.mem_singleton] at hm
                        cases hm))

theorem cond_beginTransaction (s : St) (hb : Base s) (hc : Cond s) :
    Cond (beginTransaction s) := by
  cases hcn : s.cur with
  | some g =>
      rw [beginTransaction_some s g hcn]
      exact Cond_frame s hc s.lock (s.queue ++ [.txn]) s.inflightLock
        [.enqueued .txn]
        (CcbP_mono hc.ccb
          (by intro g2 e2 hm; rw [List.mem_singleton] at hm; cases hm))
  | none =>
      have hfe : finishers s = [] := by
        cases hfs : finishers s with
        | nil => rfl
        | cons g0 r0 =>
            have h5 := hc.fins_cur g0
              (by rw [hfs]; exact List.mem_cons_self _ _)
            have h6 := h5.1
            rw [hcn] at h6
            cases h6
      obtain ⟨hW, hE⟩ := List.append_eq_nil.mp hfe
      have hWn := List.forall_none_of_filterMap_eq_nil hW
      have hEn := List.forall_none_of_filterMap_eq_nil hE
      rw [beginTransaction_none s hcn]
      by_cases h0 : s.lock = 0
      · rw [if_pos h0]
        have hfp : (finishers
            { s with cur := some s.nextGen, nextGen := s.nextGen + 1,
                     inflightExec :=
                       s.inflightExec ++ [(.sBegin, .beginCont s.nextGen)],
                     trace := s.trace ++
                       [.own s.nextGen .db,
                        .issued .sBegin s.nextGen 0] }) = [] := by
          simp [finishers, List.filterMap_append, execFin, hW, hE]
          exact fun a b hab => hEn (a, b) hab
        refine ⟨?_, ?_, ?_, ?_, ?_, ?_⟩
        · intro g2 h2 hin
          rcases Nat.lt_succ_iff_lt_or_eq.mp h2 with h3 | h3
          · have h6 := hc.unfin_cur g2 h3 hin
            rw [hcn] at h6
            cases h6
          · show some s.nextGen = some g2
            rw [h3]
        · intro g2 hg2
          rw [hfp] at hg2
          cases hg2
        · rw [hfp]
          simp
        · intro g2 g3 e2 hwr
          have := hWn _ hwr
          simp [waitFin] at this
        · intro st2 g2 g3 e2 hx
          rcases List.mem_append.mp hx with h3 | h3
          · have := hEn _ h3
            simp [execFin] at this
          · rw [List.mem_singleton] at h3
            simp at h3
        · refine CcbP_mono hc.ccb ?_
          intro g2 e2 hm
          simp only [List.mem_cons, List.mem_singleton,
            List.not_mem_nil, or_false] at hm
          rcases hm with hm | hm <;> cases hm
      · rw [if_neg h0]
        have hfp : (finishers
            { s with cur := some s.nextGen, nextGen := s.nextGen + 1,
                     waits := s.waits ++ [.wBegin s.nextGen],
                     trace := s.trace ++ [.own s.nextGen .db] }) = [] := by
          simp [finishers, List.filterMap_append, waitFin, hW, hE]
        refine ⟨?_, ?_, ?_, ?_, ?_, ?_⟩
        · intro g2 h2 hin
          rcases Nat.lt_succ_iff_lt_or_eq.mp h2 with h3 | h3
          · have h6 := hc.unfin_cur g2 h3 hin
            rw [hcn] at h6
            cases h6
          · show some s.nextGen = some g2
            rw [h3]
        · intro g2 hg2
          rw [hfp] at hg2
          cases hg2
        · rw [hfp]
          simp
        · intro g2 g3 e2 hwr
          rcases List.mem_append.mp hwr with h3 | h3
          · have := hWn _ h3
            simp [waitFin] at this
          · rw [List.mem_singleton] at h3
            cases h3
        · intro st2 g2 g3 e2 hx
          have := hEn _ hx
          simp [execFin] at this
        · refine CcbP_mono hc.ccb ?_
          intro g2 e2 hm
          rw [List.mem_singleton] at hm
          cases hm

theorem commitUser_accept (g : Nat) (s : St) (hf : g ∉ s.finishedG) :
    commitUser g s =
      (if s.lock = 0 then
        { s with inflightExec :=
                   s.inflightExec ++ [(.sCommit, .commitCont g)],
                 trace := s.trace ++
                   [.boundCall g true, .issued .sCommit g 0] }
      else
        { s with waits := s.waits ++ [.wCommit g],
                 trace := s.trace ++ [.boundCall g true] }) := by
  obtain ⟨lk, qu, cu, ng, fg, il, ie, ws, tr⟩ := s
  simp only [St.finishedG] at hf
  rw [commitUser, if_neg hf]
  by_cases h0 : lk = 0
  · simp [waitGate, h0, runWaitContNone, issue, emit]
  · simp [waitGate, h0, emit]

theorem rollbackUser_accept (g : Nat) (s : St) (hf : g ∉ s.finishedG) :
    rollbackUser g s =
      (if s.lock = 0 then
        { s with inflightExec := s.inflightExec ++
                   [(.sRollback, .rollbackCont g (.rollbackCb g))],
                 trace := s.trace ++
                   [.boundCall g false, .issued .sRollback g 0] }
      else
        { s with waits := s.waits ++ [.wRollback g (.rollbackCb g)],
                 trace := s.trace ++ [.boundCall g false] }) := by
  obtain ⟨lk, qu, cu, ng, fg, il, ie, ws, tr⟩ := s
  simp only [St.finishedG] at hf
  rw [rollbackUser, if_neg hf]
  by_cases h0 : lk = 0
  · simp [waitGate, h0, runWaitContNone, issue, emit]
  · simp [waitGate, h0, emit]

theorem finishers_nil_of_cur (s : St) (hc : Cond s) (g : Nat)
    (hcur : s.cur = some g) (hnb : g ∉ boundGens s.trace) :
    finishers s = [] := by
  cases hfs : finishers s with
  | nil => rfl
  | cons g0 r0 =>
      have h5 := hc.fins_cur g0
        (by rw [hfs]; exact List.mem_cons_self _ _)
      have h6 := h5.1
      rw [hcur] at h6
      rw [Option.some_inj] at h6
      subst h6
      exact absurd h5.2 hnb

theorem cond_commitUser (s : St) (g : Nat) (hb : Base s) (hc : Cond s)
    (hgn : g < s.nextGen) (hwu : WellUsed (commitUser g s).trace) :
    Cond (commitUser g s) := by
  by_cases hf : g ∈ s.finishedG
  · rw [commitUser, if_pos hf]
    exact Cond_frame s hc s.lock s.queue s.inflightLock
      [.userCommitCb g (some .alreadyFinished)]
      (CcbP_already _ hc.ccb g)
  · have hcur : s.cur = some g := hc.unfin_cur g hgn hf
    rw [commitUser_accept g s hf] at hwu ⊢
    by_cases h0 : s.lock = 0
    · rw [if_pos h0] at hwu ⊢
      have hbg : boundGens (s.trace ++
          [Ev.boundCall g true, Ev.issued .sCommit g 0]) =
          boundGens s.trace ++ [g] := by
        rw [boundGens_append]
        rfl
      have hnb : g ∉ boundGens s.trace := by
        have hwu2 : (boundGens s.trace ++ [g]).Nodup := by
          rw [← hbg]
          exact hwu
        exact nodup_append_singleton_not_mem hwu2
      have hfe := finishers_nil_of_cur s hc g hcur hnb
      obtain ⟨hW, hE⟩ := List.append_eq_nil.mp hfe
      have hWn := List.forall_none_of_filterMap_eq_nil hW
      have hEn := List.forall_none_of_filterMap_eq_nil hE
      have hfp : (finishers
          { s with inflightExec :=
                     s.inflightExec ++ [(.sCommit, .commitCont g)],
                   trace := s.trace ++
                     [.boundCall g true, .issued .sCommit g 0] }) = [g] := by
        simp [finishers, List.filterMap_append, execFin, hW, hE]
        exact fun a b hab => hEn (a, b) hab
      refine ⟨hc.unfin_cur, ?_, ?_, ?_, ?_, ?_⟩
      · intro g2 hg2
        rw [hfp] at hg2
        rw [List.mem_singleton] at hg2
        subst hg2
        refine ⟨hcur, ?_⟩
        show g2 ∈ boundGens (s.trace ++
          [Ev.boundCall g2 true, Ev.issued .sCommit g2 0])
        rw [boundGens_append]
        simp [boundGens]
      · rw [hfp]
        simp
      · intro g2 g3 e2 hwr
        have := hWn _ hwr
        simp [waitFin] at this
      · intro st2 g2 g3 e2 hx
        rcases List.mem_append.mp hx with h3 | h3
        · have := hEn _ h3
          simp [execFin] at this
        · rw [List.mem_singleton] at h3
          simp at h3
      · refine CcbP_mono hc.ccb ?_
        intro g2 e2 hm
        simp only [List.mem_cons, List.mem_singleton,
          List.not_mem_nil, or_false] at hm
        rcases hm with hm | hm <;> cases hm
    · rw [if_neg h0] at hwu ⊢
      have hbg : boundGens (s.trace ++ [Ev.boundCall g true]) =
          boundGens s.trace ++ [g] := by
        rw [boundGens_append]
        rfl
      have hnb : g ∉ boundGens s.trace := by
        have hwu2 : (boundGens s.trace ++ [g]).Nodup := by
          rw [← hbg]
          exact hwu
        exact nodup_append_singleton_not_mem hwu2
      have hfe := finishers_nil_of_cur s hc g hcur hnb
      obtain ⟨hW, hE⟩ := List.append_eq_nil.mp hfe
      have hWn := List.forall_none_of_filterMap_eq_nil hW
      have hEn := List.forall_none_of_filterMap_eq_nil hE
      have hfp : (finishers
          { s with waits := s.waits ++ [.wCommit g],
                   trace := s.trace ++ [.boundCall g true] }) = [g] := by
        simp [finishers, List.filterMap_append, waitFin, hW, hE]
      refine ⟨hc.unfin_cur, ?_, ?_, ?_, ?_, ?_⟩
      · intro g2 hg2
        rw [hfp] at hg2
        rw [List.mem_singleton] at hg2
        subst hg2
        refine ⟨hcur, ?_⟩
        show g2 ∈ boundGens (s.trace ++ [Ev.boundCall g2 true])
        rw [boundGens_append]
        simp [boundGens]
      · rw [hfp]
        simp
      · intro g2 g3 e2 hwr
        rcases List.mem_append.mp hwr with h3 | h3
        · have := hWn _ h3
          simp [waitFin] at this
        · rw [List.mem_singleton] at h3
          cases h3
      · intro st2 g2 g3 e2 hx
        have := hEn _ hx
        simp [execFin] at this
      · refine CcbP_mono hc.ccb ?_
        intro g2 e2 hm
        rw [List.mem_singleton] at hm
        cases hm

theorem cond_rollbackUser (s : St) (g : Nat) (hb : Base s) (hc : Cond s)
    (hgn : g < s.nextGen) (hwu : WellUsed (rollbackUser g s).trace) :
    Cond (rollbackUser g s) := by
  by_cases hf : g ∈ s.finishedG
  · rw [rollbackUser, if_pos hf]
    refine Cond_frame s hc s.lock s.queue s.inflightLock
      [.userRollbackCb g (some .alreadyFinished)] ?_
    refine CcbP_mono hc.ccb ?_
    intro g2 e2 hm
    rw [List.mem_singleton] at hm
    cases hm
  · have hcur : s.cur = some g := hc.unfin_cur g hgn hf
    rw [rollbackUser_accept g s hf] at hwu ⊢
    by_cases h0 : s.lock = 0
    · rw [if_pos h0] at hwu ⊢
      have hbg : boundGens (s.trace ++
          [Ev.boundCall g false, Ev.issued .sRollback g 0]) =
          boundGens s.trace ++ [g] := by
        rw [boundGens_append]
        rfl
      have hnb : g ∉ boundGens s.trace := by
        have hwu2 : (boundGens s.trace ++ [g]).Nodup := by
          rw [← hbg]
          exact hwu
        exact nodup_append_singleton_not_mem hwu2
      have hfe := finishers_nil_of_cur s hc g hcur hnb
      obtain ⟨hW, hE⟩ := List.append_eq_nil.mp hfe
      have hWn := List.forall_none_of_filterMap_eq_nil hW
      have hEn := List.forall_none_of_filterMap_eq_nil hE
      have hfp : (finishers
          { s with inflightExec := s.inflightExec ++
                     [(.sRollback, .rollbackCont g (.rollbackCb g))],
                   trace := s.trace ++
                     [.boundCall g false, .issued .sRollback g 0] }) =
          [g] := by
        simp [finishers, List.filterMap_append, execFin, hW, hE]
        exact fun a b hab => hEn (a, b) hab
      refine ⟨hc.unfin_cur, ?_, ?_, ?_, ?_, ?_⟩
      · intro g2 hg2
        rw [hfp] at hg2
        rw [List.mem_singleton] at hg2
        subst hg2
        refine ⟨hcur, ?_⟩
        show g2 ∈ boundGens (s.trace ++
          [Ev.boundCall g2 false, Ev.issued .sRollback g2 0])
        rw [boundGens_append]
        simp [boundGens]
      · rw [hfp]
        simp
      · intro g2 g3 e2 hwr
        have := hWn _ hwr
        simp [waitFin] at this
      · intro st2 g2 g3 e2 hx
        rcases List.mem_append.mp hx with h3 | h3
        · have := hEn _ h3
          simp [execFin] at this
        · rw [List.mem_singleton] at h3
          simp at h3
      · refine CcbP_mono hc.ccb ?_
        intro g2 e2 hm
        simp only [List.mem_cons, List.mem_singleton,
          List.not_mem_nil, or_false] at hm
        rcases hm with hm | hm <;> cases hm
    · rw [if_neg h0] at hwu ⊢
      have hbg : boundGens (s.trace ++ [Ev.boundCall g false]) =
          boundGens s.trace ++ [g] := by
        rw [boundGens_append]
        rfl
      have hnb : g ∉ boundGens s.trace := by
        have hwu2 : (boundGens s.trace ++ [g]).Nodup := by
          rw [← hbg]
          exact hwu
        exact nodup_append_singleton_not_mem hwu2
      have hfe := finishers_nil_of_cur s hc g hcur hnb
      obtain ⟨hW, hE⟩ := List.append_eq_nil.mp hfe
      have hWn := List.forall_none_of_filterMap_eq_nil hW
      have hEn := List.forall_none_of_filterMap_eq_nil hE
      have hfp : (finishers
          { s with waits := s.waits ++ [.wRollback g (.rollbackCb g)],
                   trace := s.trace ++ [.boundCall g false] }) = [g] := by
        simp [finishers, List.filterMap_append, waitFin, hW, hE]
      refine ⟨hc.unfin_cur, ?_, ?_, ?_, ?_, ?_⟩
      · intro g2 hg2
        rw [hfp] at hg2
        rw [List.mem_singleton] at hg2
        subst hg2
        refine ⟨hcur, ?_⟩
        show g2 ∈ boundGens (s.trace ++ [Ev.boundCall g2 false])
        rw [boundGens_append]
        simp [boundGens]
      · rw [hfp]
        simp
      · intro g2 g3 e2 hwr
        rcases List.mem_append.mp hwr with h3 | h3
        · have := hWn _ h3
          simp [waitFin] at this
        · rw [List.mem_singleton] at h3
          rw [WaitCont.wRollback.injEq] at h3
          have h4 := h3.2
          cases h4
      · intro st2 g2 g3 e2 hx
        have := hEn _ hx
        simp [execFin] at this
      · refine CcbP_mono hc.ccb ?_
        intro g2 e2 hm
        rw [List.mem_singleton] at hm
        cases hm

theorem rollbackBody_accept (g : Nat) (k : FinishCb) (s : St)
    (hf : g ∉ s.finishedG) :
    rollbackBody g k s =
      (if s.lock = 0 then
        { s with inflightExec :=
                   s.inflightExec ++ [(.sRollback, .rollbackCont g k)],
                 trace := s.trace ++ [.issued .sRollback g 0] }
      else { s with waits := s.waits ++ [.wRollback g k] }) := by
  obtain ⟨lk, qu, cu, ng, fg, il, ie, ws, tr⟩ := s
  simp only [St.finishedG] at hf
  rw [rollbackBody, if_neg hf]
  by_cases h0 : lk = 0
  · simp [waitGate, h0, runWaitContNone, issue]
  · simp [waitGate, h0]

theorem mem_of_mem_split {α : Type} {a c : α} {w1 w2 : List α}
    (h : a ∈ w1 ++ w2) : a ∈ w1 ++ c :: w2 := by
  rcases List.mem_append.mp h with h2 | h2
  · exact List.mem_append_left _ h2
  · exact List.mem_append_right _ (List.mem_cons_of_mem _ h2)

theorem cond_fireWait (s : St) (i : Nat) (hb : Base s) (hc : Cond s) :
    Cond (fireWait i s) := by
  rw [fireWait]
  by_cases h0 : s.lock = 0
  · rw [if_pos h0]
    cases hw : s.waits[i]? with
    | none => exact hc
    | some c =>
        show Cond (runWaitContNone c { s with waits := s.waits.eraseIdx i })
        obtain ⟨w1, w2, hsp, her⟩ := getElem?_split s.waits i c hw
        rw [her]
        have hcm : c ∈ s.waits := List.getElem?_mem hw
        cases c with
        | wBegin g =>
            rw [runWaitContNone, issue]
            have hfs : finishers s =
                w1.filterMap waitFin ++ (w2.filterMap waitFin ++
                  s.inflightExec.filterMap fun p => execFin p.2) := by
              simp [finishers, hsp, List.filterMap_append, waitFin]
            have hfp : (finishers
                { s with waits := w1 ++ w2,
                         inflightExec :=
                           s.inflightExec ++ [(.sBegin, .beginCont g)],
                         trace := s.trace ++
                           [.issued .sBegin g s.lock] }) =
                w1.filterMap waitFin ++ (w2.filterMap waitFin ++
                  s.inflightExec.filterMap fun p => execFin p.2) := by
              simp [finishers, List.filterMap_append, execFin]
            refine ⟨hc.unfin_cur, ?_, ?_, ?_, ?_, ?_⟩
            · intro g2 hg2
              rw [hfp, ← hfs] at hg2
              obtain ⟨h1, h2⟩ := hc.fins_cur g2 hg2
              exact ⟨h1, by rw [boundGens_append]
                            exact List.mem_append_left _ h2⟩
            · rw [hfp, ← hfs]
              exact hc.fins_one
            · intro g2 g3 e2 hwr
              obtain ⟨h1, h2⟩ := hc.cf_wait g2 g3 e2
                (hsp ▸ mem_of_mem_split hwr)
              exact ⟨h1, List.mem_append_left _ h2⟩
            · intro st2 g2 g3 e2 hx
              rcases List.mem_append.mp hx with h3 | h3
              · obtain ⟨h1, h2, h4⟩ := hc.cf_exec st2 g2 g3 e2 h3
                exact ⟨h1, List.mem_append_left _ h2,
                  List.mem_append_left _ h4⟩
              · rw [List.mem_singleton] at h3
                simp at h3
            · refine CcbP_mono hc.ccb ?_
              intro g2 e2 hm
              rw [List.mem_singleton] at hm
              cases hm
        | wCommit g =>
            rw [runWaitContNone, issue]
            have hfs : finishers s =
                w1.filterMap waitFin ++ (g :: (w2.filterMap waitFin ++
                  s.inflightExec.filterMap fun p => execFin p.2)) := by
              simp [finishers, hsp, List.filterMap_append, waitFin]
            have hl := hc.fins_one
            rw [hfs] at hl
            simp [List.length_append] at hl
            obtain ⟨hW1, hW2, hE⟩ : w1.filterMap waitFin = [] ∧
                w2.filterMap waitFin = [] ∧
                (s.inflightExec.filterMap fun p => execFin p.2) = [] := by
              refine ⟨List.length_eq_zero.mp ?_, List.length_eq_zero.mp ?_,
                List.length_eq_zero.mp ?_⟩ <;> omega
            have hW1n := List.forall_none_of_filterMap_eq_nil hW1
            have hW2n := List.forall_none_of_filterMap_eq_nil hW2
            have hEn := List.forall_none_of_filterMap_eq_nil hE
            obtain ⟨hcur, hbg⟩ := hc.fins_cur g (by rw [hfs]; simp)
            have hfp : (finishers
                { s with waits := w1 ++ w2,
                         inflightExec :=
                           s.inflightExec ++ [(.sCommit, .commitCont g)],
                         trace := s.trace ++
                           [.issued .sCommit g s.lock] }) = [g] := by
              simp [finishers, List.filterMap_append, execFin, hW1, hW2, hE]
              exact fun a b hab => hEn (a, b) hab
            refine ⟨hc.unfin_cur, ?_, ?_, ?_, ?_, ?_⟩
            · intro g2 hg2
              rw [hfp] at hg2
              rw [List.mem_singleton] at hg2
              subst hg2
              exact ⟨hcur, by rw [boundGens_append]
                              exact List.mem_append_left _ hbg⟩
            · rw [hfp]
              simp
            · intro g2 g3 e2 hwr
              rcases List.mem_append.mp hwr with h3 | h3
              · have := hW1n _ h3
                simp [waitFin] at this
              · have := hW2n _ h3
                simp [waitFin] at this
            · intro st2 g2 g3 e2 hx
              rcases List.mem_append.mp hx with h3 | h3
              · have := hEn _ h3
                simp [execFin] at this
              · rw [List.mem_singleton] at h3
                simp at h3
            · refine CcbP_mono hc.ccb ?_
              intro g2 e2 hm
              rw [List.mem_singleton] at hm
              cases hm
        | wRollback g k =>
            rw [runWaitContNone, issue]
            have hfs : finishers s =
                w1.filterMap waitFin ++ (g :: (w2.filterMap waitFin ++
                  s.inflightExec.filterMap fun p => execFin p.2)) := by
              simp [finishers, hsp, List.filterMap_append, waitFin]
            have hl := hc.fins_one
            rw [hfs] at hl
            simp [List.length_append] at hl
            obtain ⟨hW1, hW2, hE⟩ : w1.filterMap waitFin = [] ∧
                w2.filterMap waitFin = [] ∧
                (s.inflightExec.filterMap fun p => execFin p.2) = [] := by
              refine ⟨List.length_eq_zero.mp ?_, List.length_eq_zero.mp ?_,
                List.length_eq_zero.mp ?_⟩ <;> omega
            have hW1n := List.forall_none_of_filterMap_eq_nil hW1
            have hW2n := List.forall_none_of_filterMap_eq_nil hW2
            have hEn := List.forall_none_of_filterMap_eq_nil hE
            obtain ⟨hcur, hbg⟩ := hc.fins_cur g (by rw [hfs]; simp)
            have hfp : (finishers
                { s with waits := w1 ++ w2,
                         inflightExec := s.inflightExec ++
                           [(.sRollback, .rollbackCont g k)],
                         trace := s.trace ++
                           [.issued .sRollback g s.lock] }) = [g] := by
              simp [finishers, List.filterMap_append, execFin, hW1, hW2, hE]
              exact fun a b hab => hEn (a, b) hab
            refine ⟨hc.unfin_cur, ?_, ?_, ?_, ?_, ?_⟩
            · intro g2 hg2
              rw [hfp] at hg2
              rw [List.mem_singleton] at hg2
              subst hg2
              exact ⟨hcur, by rw [boundGens_append]
                              exact List.mem_append_left _ hbg⟩
            · rw [hfp]
              simp
            · intro g2 g3 e2 hwr
              rcases List.mem_append.mp hwr with h3 | h3
              · have := hW1n _ h3
                simp [waitFin] at this
              · have := hW2n _ h3
                simp [waitFin] at this
            · intro st2 g2 g3 e2 hx
              rcases List.mem_append.mp hx with h3 | h3
              · have := hEn _ h3
                simp [execFin] at this
              · rw [List.mem_singleton] at h3
                rw [Prod.mk.injEq] at h3
                have h4 := h3.2
                rw [ExecCont.rollbackCont.injEq] at h4
                obtain ⟨h5, h6⟩ := h4
                subst h5
                obtain ⟨h7, h8⟩ := hc.cf_wait g2 g3 e2 (hsp ▸ (by
                  rw [← h6]
                  exact List.mem_append_right _ (List.mem_cons_self _ _)))
                refine ⟨h7, List.mem_append_left _ h8, ?_⟩
                rw [h0]
                subst h7
                simp
            · refine CcbP_mono hc.ccb ?_
              intro g2 e2 hm
              rw [List.mem_singleton] at hm
              cases hm
  · rw [if_neg h0]
    exact hc

theorem cond_execDone (s : St) (r : Option Err) (hb : Base s)
    (hc : Cond s) : Cond (execDone r s) := by
  rw [execDone]
  cases he : s.inflightExec with
  | nil => exact hc
  | cons p rest =>
      obtain ⟨st1, k1⟩ := p
      show Cond (runExecCont k1 r { s with inflightExec := rest })
      have hb2 : Base { s with inflightExec := rest } :=
        Base_execTail s hb (st1, k1) rest he
      cases k1 with
      | beginCont g =>
          have hfs : finishers s = s.waits.filterMap waitFin ++
              rest.filterMap (fun p => execFin p.2) := by
            simp [finishers, he, execFin]
          have hfp : ∀ L : List Ev, (finishers
              { s with inflightExec := rest,
                       trace := s.trace ++ L }) =
              s.waits.filterMap waitFin ++
                rest.filterMap (fun p => execFin p.2) := by
            intro L
            simp [finishers]
          have main : ∀ L : List Ev,
              CcbP (s.trace ++ L) →
              Cond { s with inflightExec := rest,
                            trace := s.trace ++ L } := by
            intro L hccb2
            refine ⟨hc.unfin_cur, ?_, ?_, ?_, ?_, hccb2⟩
            · intro g2 hg2
              rw [hfp L, ← hfs] at hg2
              obtain ⟨h1, h2⟩ := hc.fins_cur g2 hg2
              exact ⟨h1, by rw [boundGens_append]
                            exact List.mem_append_left _ h2⟩
            · rw [hfp L, ← hfs]
              exact hc.fins_one
            · intro g2 g3 e2 hwr
              obtain ⟨h1, h2⟩ := hc.cf_wait g2 g3 e2 hwr
              exact ⟨h1, List.mem_append_left _ h2⟩
            · intro st2 g2 g3 e2 hx
              obtain ⟨h1, h2, h4⟩ := hc.cf_exec st2 g2 g3 e2
                (by rw [he]; exact List.mem_cons_of_mem _ hx)
              exact ⟨h1, List.mem_append_left _ h2,
                List.mem_append_left _ h4⟩
          cases r with
          | none =>
              rw [runExecCont]
              exact main [.beginOk g] (CcbP_mono hc.ccb
                (by intro g2 e2 hm; rw [List.mem_singleton] at hm
                    cases hm))
          | some e =>
              rw [runExecCont]
              exact main [.userBeginCb g (some e)] (CcbP_mono hc.ccb
                (by intro g2 e2 hm; rw [List.mem_singleton] at hm
                    cases hm))
      | commitCont g =>
          have hfs : finishers s = s.waits.filterMap waitFin ++
              (g :: rest.filterMap (fun p => execFin p.2)) := by
            simp [finishers, he, execFin]
          have hl := hc.fins_one
          rw [hfs] at hl
          simp [List.length_append] at hl
          obtain ⟨hW, hR⟩ : s.waits.filterMap waitFin = [] ∧
              rest.filterMap (fun p => execFin p.2) = [] := by
            refine ⟨List.length_eq_zero.mp ?_, List.length_eq_zero.mp ?_⟩
              <;> omega
          have hWn := List.forall_none_of_filterMap_eq_nil hW
          have hRn := List.forall_none_of_filterMap_eq_nil hR
          obtain ⟨hcur, hbg⟩ := hc.fins_cur g (by rw [hfs]; simp)
          have hgn : g < s.nextGen :=
            hb.exec_lt (st1, .commitCont g)
              (by rw [he]; exact List.mem_cons_self _ _)
          have honly : ∀ g2, g2 < s.nextGen → g2 ∉ s.finishedG →
              g2 = g := by
            intro g2 h2 h3
            have h4 := hc.unfin_cur g2 h2 h3
            rw [hcur] at h4
            rw [Option.some_inj] at h4
            exact h4.symm
          have hfins2 : finishers { s with inflightExec := rest } = [] := by
            simp [finishers, hW, hR]
          cases r with
          | none =>
              rw [runExecCont]
              exact finishTransaction_cond g none (.commitCb g) _ hb2 hgn
                honly hfins2 hc.ccb (Or.inl ⟨rfl, rfl⟩)
          | some e =>
              rw [runExecCont]
              have hnotf : g ∉ s.finishedG := hb.cur_unfin g hcur
              have hnotf2 : g ∉ (emit (Ev.commitFailed g e)
                  { s with inflightExec := rest }).finishedG := hnotf
              rw [rollbackBody_accept g (.commitErrCb g e) _ hnotf2]
              simp only [emit_lock, emit_trace, emit_finishedG,
                emit_inflightExec, emit_waits, emit_queue, emit_cur,
                emit_nextGen, emit_inflightLock]
              by_cases h0 : s.lock = 0
              · rw [if_pos (show
                  ({ s with inflightExec := rest } : St).lock = 0 from h0)]
                have hfp : (finishers
                    { s with
                      inflightExec :=
                        rest ++
                          [(.sRollback, .rollbackCont g (.commitErrCb g e))],
                      trace :=
                        s.trace ++ [Ev.commitFailed g e] ++
                          [.issued .sRollback g 0] }) = [g] := by
                  simp [finishers, List.filterMap_append, execFin, hW, hR]
                  exact fun a b hab => hRn (a, b) hab
                refine ⟨hc.unfin_cur, ?_, ?_, ?_, ?_, ?_⟩
                · intro g2 hg2
                  rw [hfp] at hg2
                  rw [List.mem_singleton] at hg2
                  subst hg2
                  refine ⟨hcur, ?_⟩
                  rw [boundGens_append, boundGens_append]
                  exact List.mem_append_left _ (List.mem_append_left _ hbg)
                · rw [hfp]
                  simp
                · intro g2 g3 e2 hwr
                  have := hWn _ hwr
                  simp [waitFin] at this
                · intro st2 g2 g3 e2 hx
                  rcases List.mem_append.mp hx with h3 | h3
                  · have := hRn _ h3
                    simp [execFin] at this
                  · rw [List.mem_singleton] at h3
                    rw [Prod.mk.injEq] at h3
                    have h4 := h3.2
                    rw [ExecCont.rollbackCont.injEq] at h4
                    obtain ⟨h5, h6⟩ := h4
                    rw [FinishCb.commitErrCb.injEq] at h6
                    obtain ⟨h7, h8⟩ := h6
                    subst h5
                    subst h7
                    subst h8
                    refine ⟨rfl, ?_, ?_⟩
                    · exact List.mem_append_left _
                        (List.mem_append_right _ (List.mem_singleton_self _))
                    · exact List.mem_append_right _
                        (List.mem_singleton_self _)
                · have hc1 : CcbP (s.trace ++ [Ev.commitFailed g e]) :=
                    CcbP_mono hc.ccb
                    (by intro g2 e2 hm; rw [List.mem_singleton] at hm
                        cases hm)
                  exact CcbP_mono hc1
                    (by intro g2 e2 hm; rw [List.mem_singleton] at hm
                        cases hm)
              · rw [if_neg (show ¬
                  ({ s with inflightExec := rest } : St).lock = 0 from h0)]
                have hfp : (finishers
                    { s with
                      inflightExec := rest,
                      waits := s.waits ++ [.wRollback g (.commitErrCb g e)],
                      trace := s.trace ++ [Ev.commitFailed g e] }) =
                    [g] := by
                  simp [finishers, List.filterMap_append, waitFin, hW, hR]
                refine ⟨hc.unfin_cur, ?_, ?_, ?_, ?_, ?_⟩
                · intro g2 hg2
                  rw [hfp] at hg2
                  rw [List.mem_singleton] at hg2
                  subst hg2
                  refine ⟨hcur, ?_⟩
                  rw [boundGens_append]
                  exact List.mem_append_left _ hbg
                · rw [hfp]
                  simp
                · intro g2 g3 e2 hwr
                  rcases List.mem_append.mp hwr with h3 | h3
                  · have := hWn _ h3
                    simp [waitFin] at this
                  · rw [List.mem_singleton] at h3
                    rw [WaitCont.wRollback.injEq] at h3
                    obtain ⟨h5, h6⟩ := h3
                    rw [FinishCb.commitErrCb.injEq] at h6
                    obtain ⟨h7, h8⟩ := h6
                    subst h5
                    subst h7
                    subst h8
                    exact ⟨rfl, List.mem_append_right _
                      (List.mem_singleton_self _)⟩
                · intro st2 g2 g3 e2 hx
                  have := hRn _ hx
                  simp [execFin] at this
                · exact CcbP_mono hc.ccb
                    (by intro g2 e2 hm; rw [List.mem_singleton] at hm
                        cases hm)
      | rollbackCont g k =>
          have hfs : finishers s = s.waits.filterMap waitFin ++
              (g :: rest.filterMap (fun p => execFin p.2)) := by
            simp [finishers, he, execFin]
          have hl := hc.fins_one
          rw [hfs] at hl
          simp [List.length_append] at hl
          obtain ⟨hW, hR⟩ : s.waits.filterMap waitFin = [] ∧
              rest.filterMap (fun p => execFin p.2) = [] := by
            refine ⟨List.length_eq_zero.mp ?_, List.length_eq_zero.mp ?_⟩
              <;> omega
          obtain ⟨hcur, hbg⟩ := hc.fins_cur g (by rw [hfs]; simp)
          have hgn : g < s.nextGen :=
            hb.exec_lt (st1, .rollbackCont g k)
              (by rw [he]; exact List.mem_cons_self _ _)
          have honly : ∀ g2, g2 < s.nextGen → g2 ∉ s.finishedG →
              g2 = g := by
            intro g2 h2 h3
            have h4 := hc.unfin_cur g2 h2 h3
            rw [hcur] at h4
            rw [Option.some_inj] at h4
            exact h4.symm
          have hfins2 : finishers { s with inflightExec := rest } = [] := by
            simp [finishers, hW, hR]
          rw [runExecCont]
          refine finishTransaction_cond g r k _ hb2 hgn honly hfins2
            hc.ccb ?_
          rcases hb.rc_shape st1 g k
            (by rw [he]; exact List.mem_cons_self _ _) with h4 | ⟨e0, h4⟩
          · exact Or.inr (Or.inl h4)
          · subst h4
            obtain ⟨h5, h6, h7⟩ := hc.cf_exec st1 g g e0
              (by rw [he]; exact List.mem_cons_self _ _)
            exact Or.inr (Or.inr (Or.inl ⟨e0, rfl, h6, h7⟩))

theorem step_cond (s : St) (a : Act) (hb : Base s) (hc : Cond s)
    (hwu : WellUsed (step s a).trace) : Cond (step s a) := by
  cases a with
  | callOp lk c =>
      rw [step]
      exact cond_callOp s lk c hc
  | callTr =>
      rw [step]
      exact Cond_frame s hc s.lock s.queue s.inflightLock [.rawDispatched]
        (CcbP_mono hc.ccb
          (by intro g2 e2 hm; rw [List.mem_singleton] at hm; cases hm))
  | callBegin =>
      rw [step]
      exact cond_beginTransaction s hb hc
  | callCommit g =>
      rw [step] at hwu ⊢
      by_cases hgn : g < s.nextGen
      · rw [if_pos hgn] at hwu ⊢
        exact cond_commitUser s g hb hc hgn hwu
      · rw [if_neg hgn]
        exact hc
  | callRollback g =>
      rw [step] at hwu ⊢
      by_cases hgn : g < s.nextGen
      · rw [if_pos hgn] at hwu ⊢
        exact cond_rollbackUser s g hb hc hgn hwu
      · rw [if_neg hgn]
        exact hc
  | fireWait i =>
      rw [step]
      exact cond_fireWait s i hb hc
  | execDone r =>
      rw [step]
      exact cond_execDone s r hb hc
  | lockDone r =>
      rw [step]
      exact cond_lockDone s r hb hc

theorem inv_init : Inv init := by
  constructor
  · refine ⟨?_, rfl, ?_, ?_, ?_, ?_, ?_, ?_, ?_, ?_, ?_, ?_⟩
    · intro e he
      cases he
    · intro g
      simp [init]
    · intro g
      simp [init]
    · intro g h hm
      cases hm
    · intro g h2
      cases h2
    · intro g h2
      cases h2
    · intro g h2
      cases h2
    · intro c hcw
      cases hcw
    · intro p hp
      cases hp
    · intro g k hk
      cases hk
    · intro st g k hk
      cases hk
  · intro _
    refine ⟨?_, ?_, ?_, ?_, ?_, ?_⟩
    · intro g h2 _
      cases h2
    · intro g hg
      cases hg
    · simp [finishers, init]
    · intro g g2 e hwr
      cases hwr
    · intro st g g2 e hx
      cases hx
    · intro g e hm
      cases hm

theorem inv_foldl : ∀ (acts : List Act) (s : St), Inv s →
    Inv (acts.foldl step s) := by
  intro acts
  induction acts with
  | nil => intro s h; exact h
  | cons a rest ih =>
      intro s h
      rw [List.foldl_cons]
      refine ih (step s a) ⟨step_base s a h.1, ?_⟩
      intro hwu
      obtain ⟨l, hl⟩ := trace_ext_step s a
      have hwus : WellUsed s.trace := by
        rw [hl] at hwu
        exact wellUsed_of_append hwu
      exact step_cond s a h.1 (h.2 hwus) hwu

theorem inv_reach (acts : List Act) : Inv (reach acts) :=
  inv_foldl acts init inv_init

/-- C1: in every execution, every transaction boundary statement (BEGIN,
COMMIT or ROLLBACK) is issued to the connection only at a moment when the
lock counter is exactly zero - the `issued` trace event records the value of
`_lock` at the instant `self._exec` is called, and it is always `0`;
moreover the lock counter always equals the number of in-flight locking
operations, so zero means no locking operation is in flight at issuance. -/
theorem c1_boundary_issued_at_lock_zero :
    ∀ acts : List Act,
      (∀ (st : Stmt) (g l : Nat),
        Ev.issued st g l ∈ (reach acts).trace → l = 0) ∧
      (reach acts).lock = (reach acts).inflightLock.length := by
  intro acts
  exact ⟨fun st g l h => ((inv_reach acts).1.tr _ h).1 st g l rfl,
    (inv_reach acts).1.bal⟩

/-- C1 witness: the BEGIN issued by a `beginTransaction` on the fresh facade
is recorded with the lock counter at zero. -/
theorem c1_witness :
    Ev.issued .sBegin 0 0 ∈ (reach [Act.callBegin]).trace ∧ (0 : Nat) = 0 :=
  ⟨by decide,
    (c1_boundary_issued_at_lock_zero [Act.callBegin]).1 .sBegin 0 0
      (by decide)⟩

/-- C2, amended.  As stated the claim is false: `currentTransaction` is
assigned *before* BEGIN is issued (source line 235 precedes line 270), and
under racing boundary calls it can also outlive the commit callback.  The
true invariant: provided no handle receives a second commit/rollback call
before its first completes (`WellUsed`), `currentTransaction` is non-null
exactly while some generation is between `beginTransaction` taking
synchronous ownership of the connection (the `own` event, before BEGIN is
even issued - and a failed BEGIN does not end the window) and the
completion of its commit/rollback (`finish`); at most one generation is in
that window at a time, namely the current one. -/
theorem c2_amended :
    ∀ acts : List Act, WellUsed (reach acts).trace →
      ((reach acts).cur.isSome = true ↔
        ∃ g, Ev.own g Obj.db ∈ (reach acts).trace ∧
          Ev.finish g ∉ (reach acts).trace) ∧
      (∀ g g2, (reach acts).cur = some g →
        Ev.own g2 Obj.db ∈ (reach acts).trace →
        Ev.finish g2 ∉ (reach acts).trace → g2 = g) := by
  intro acts hwu
  obtain ⟨hb, hcf⟩ := inv_reach acts
  have hc := hcf hwu
  constructor
  · constructor
    · intro h
      obtain ⟨g, hg⟩ := Option.isSome_iff_exists.mp h
      refine ⟨g, (hb.own_iff g).mpr (hb.cur_lt g hg), ?_⟩
      intro hfin
      exact hb.cur_unfin g hg ((hb.fin_iff g).mpr hfin)
    · intro h
      obtain ⟨g, hown, hnf⟩ := h
      have h1 : g < (reach acts).nextGen := (hb.own_iff g).mp hown
      have h2 : g ∉ (reach acts).finishedG :=
        fun hm => hnf ((hb.fin_iff g).mp hm)
      rw [hc.unfin_cur g h1 h2]
      rfl
  · intro g g2 hcur hown hnf
    have h1 : g2 < (reach acts).nextGen := (hb.own_iff g2).mp hown
    have h2 : g2 ∉ (reach acts).finishedG :=
      fun hm => hnf ((hb.fin_iff g2).mp hm)
    have h3 := hc.unfin_cur g2 h1 h2
    rw [hcur] at h3
    exact (Option.some_inj.mp h3).symm

/-- C2 witness: after one `beginTransaction` on the fresh facade the usage
is well-formed, and the amended window characterization holds there. -/
theorem c2_witness :
    WellUsed (reach [Act.callBegin]).trace ∧
      ((reach [Act.callBegin]).cur.isSome = true ↔
        ∃ g, Ev.own g Obj.db ∈ (reach [Act.callBegin]).trace ∧
          Ev.finish g ∉ (reach [Act.callBegin]).trace) := by
  have hwu : WellUsed (reach [Act.callBegin]).trace := by
    show (boundGens (reach [Act.callBegin]).trace).Nodup
    decide
  exact ⟨hwu, (c2_amended [Act.callBegin] hwu).1⟩

/-- C5, amended.  As stated the claim is false: under a double-commit race
the second caller's callback receives the COMMIT error although no ROLLBACK
was ever issued (`c5_counterexample`).  The true property: provided no
handle receives a second commit/rollback call before its first completes
(`WellUsed`), whenever a commit callback reports a connection error, the
COMMIT of that generation failed with that very error, a ROLLBACK statement
was issued for it (at lock zero), and the transaction is terminal - the
`finish` event has happened and the generation's `finished` flag is set -
by the time the callback fires. -/
theorem c5_amended :
    ∀ (acts : List Act) (g n : Nat), WellUsed (reach acts).trace →
      Ev.userCommitCb g (some (.db n)) ∈ (reach acts).trace →
        Ev.commitFailed g (.db n) ∈ (reach acts).trace ∧
        Ev.issued .sRollback g 0 ∈ (reach acts).trace ∧
        Ev.finish g ∈ (reach acts).trace ∧
        g ∈ (reach acts).finishedG := by
  intro acts g n hwu hm
  obtain ⟨hb, hcf⟩ := inv_reach acts
  have hc := hcf hwu
  rcases hc.ccb g (.db n) hm with h1 | ⟨h1, h2, h3⟩
  · exact Err.noConfusion h1
  · exact ⟨h1, h2, h3, (hb.fin_iff g).mpr h3⟩

/-- C5 witness: a single well-used transaction whose COMMIT fails - the
rollback is issued and the transaction finishes before the commit callback
reports the COMMIT error. -/
theorem c5_witness :
    WellUsed (reach [Act.callBegin, .execDone none, .callCommit 0,
        .execDone (some (.db 0)), .execDone none]).trace ∧
      Ev.userCommitCb 0 (some (.db 0)) ∈
        (reach [Act.callBegin, .execDone none, .callCommit 0,
          .execDone (some (.db 0)), .execDone none]).trace ∧
      Ev.issued .sRollback 0 0 ∈
        (reach [Act.callBegin, .execDone none, .callCommit 0,
          .execDone (some (.db 0)), .execDone none]).trace ∧
      Ev.finish 0 ∈
        (reach [Act.callBegin, .execDone none, .callCommit 0,
          .execDone (some (.db 0)), .execDone none]).trace := by
  have hwu : WellUsed (reach [Act.callBegin, .execDone none, .callCommit 0,
      .execDone (some (.db 0)), .execDone none]).trace := by
    show (boundGens (reach [Act.callBegin, .execDone none, .callCommit 0,
      .execDone (some (.db 0)), .execDone none]).trace).Nodup
    decide
  have h := c5_amended [Act.callBegin, .execDone none, .callCommit 0,
    .execDone (some (.db 0)), .execDone none] 0 0 hwu (by decide)
  exact ⟨hwu, by decide, h.2.1, h.2.2.1⟩

/-- C8: the dispatcher's lock discipline.  (i) A locking call with no
active transaction increments the lock counter and goes in flight at once;
(ii) with a transaction active the call is only queued - lock counter and
in-flight list untouched; (iii) on completion of the oldest in-flight
locking operation the counter is decremented exactly once, the `lockDec`
event strictly preceding the caller's callback event - which is the
caller's own callback when one was supplied, and otherwise the synthesized
one, which forwards an error to the connection error channel and does
nothing on success; (iv) the queue drain increments the counter for a
locking item only at the moment it is dispatched from the queue; (v) in
every execution the counter equals the number of in-flight locking
operations and the "Locks are not ballanced" exception never fires. -/
theorem c8_lock_counter_discipline :
    (∀ (s : St) (c : Bool), s.cur = none →
      callOp true c s =
        emit (.opDispatched true c)
          { s with lock := s.lock + 1,
                   inflightLock := s.inflightLock ++ [c] }) ∧
    (∀ (s : St) (g : Nat) (locking c : Bool), s.cur = some g →
      (callOp locking c s).lock = s.lock ∧
      (callOp locking c s).inflightLock = s.inflightLock ∧
      (callOp locking c s).queue =
        s.queue ++ [if locking then .lock c else .simple]) ∧
    (∀ (s : St) (c : Bool) (rest : List Bool) (res : Option Err),
      s.inflightLock = c :: rest → 1 ≤ s.lock →
      (lockDone res s).lock = s.lock - 1 ∧
      (lockDone res s).inflightLock = rest ∧
      (lockDone res s).trace =
        s.trace ++ [.lockDec] ++
          (if c then [.userOpCb res]
           else
             match res with
             | some e => [.emitError e]
             | none => [])) ∧
    (∀ (q2 : List QItem) (c : Bool) (s : St), s.queue = .lock c :: q2 →
      runQueueGo s.queue s =
        runQueueGo q2 (emit (.dispatched (.lock c))
          { s with queue := q2, lock := s.lock + 1,
                   inflightLock := s.inflightLock ++ [c] })) ∧
    (∀ acts : List Act,
      (reach acts).lock = (reach acts).inflightLock.length ∧
      Ev.fatalImbalance ∉ (reach acts).trace) := by
  refine ⟨?_, ?_, ?_, ?_, ?_⟩
  · intro s c h
    obtain ⟨lk, qu, cu, ng, fg, il, ie, ws, tr⟩ := s
    simp only [St.cur] at h
    subst h
    rfl
  · intro s g locking c h
    obtain ⟨lk, qu, cu, ng, fg, il, ie, ws, tr⟩ := s
    simp only [St.cur] at h
    subst h
    cases locking <;> simp [callOp, emit]
  · intro s c rest res h hl
    obtain ⟨lk, qu, cu, ng, fg, il, ie, ws, tr⟩ := s
    simp only [St.inflightLock] at h
    subst h
    simp only [St.lock] at hl
    have hne : lk ≠ 0 := by omega
    rw [lockDone]
    cases c
    · cases res <;> simp [emit, Nat.lt_one_iff, hne]
    · simp [emit, Nat.lt_one_iff, hne]
  · intro q2 c s h
    obtain ⟨lk, qu, cu, ng, fg, il, ie, ws, tr⟩ := s
    simp only [St.queue] at h
    subst h
    rfl
  · intro acts
    refine ⟨(inv_reach acts).1.bal, ?_⟩
    intro hm
    exact ((inv_reach acts).1.tr _ hm).2.2 rfl

/-- C8 witness: a locking call on the idle fresh facade increments the
counter to one, and the completion of that operation decrements it back. -/
theorem c8_witness :
    init.cur = none ∧
    (reach [Act.callOp true true]).inflightLock = [true] ∧
    1 ≤ (reach [Act.callOp true true]).lock ∧
    callOp true true init =
      emit (.opDispatched true true)
        { init with lock := init.lock + 1,
                    inflightLock := init.inflightLock ++ [true] } ∧
    (lockDone none (reach [Act.callOp true true])).lock =
      (reach [Act.callOp true true]).lock - 1 := by
  refine ⟨rfl, by decide, by decide,
    c8_lock_counter_discipline.1 init true rfl,
    (c8_lock_counter_discipline.2.2.1 (reach [Act.callOp true true]) true
      [] none (by decide) (by decide)).1⟩

/-- C9: the transaction handle is the raw database object, not the facade -
every ownership event of every execution records the raw `db` object as the
handle (`var tr = self.db`, one shared object across all transactions of
the facade's lifetime); and a statement run through the handle's raw
methods dispatches directly: it changes neither the lock counter, nor the
pending queue, nor the in-flight locking list, nor `currentTransaction`,
appending only the dispatch event. -/
theorem c9_handle_is_raw_db :
    (∀ (acts : List Act) (g : Nat) (h : Obj),
      Ev.own g h ∈ (reach acts).trace → h = Obj.db) ∧
    (∀ s : St,
      step s .callTr = emit .rawDispatched s ∧
      (step s .callTr).lock = s.lock ∧
      (step s .callTr).queue = s.queue ∧
      (step s .callTr).inflightLock = s.inflightLock ∧
      (step s .callTr).cur = s.cur ∧
      (step s .callTr).trace = s.trace ++ [.rawDispatched]) := by
  refine ⟨?_, ?_⟩
  · intro acts g h hm
    exact (inv_reach acts).1.own_db g h hm
  · intro s
    exact ⟨rfl, rfl, rfl, rfl, rfl, rfl⟩

/-- C9 witness: the transaction begun on the fresh facade owns the raw db
handle. -/
theorem c9_witness :
    Ev.own 0 Obj.db ∈ (reach [Act.callBegin]).trace ∧ Obj.db = Obj.db :=
  ⟨by decide, c9_handle_is_raw_db.1 [Act.callBegin] 0 Obj.db (by decide)⟩

/-- C10: the wait gate always invokes its continuation with no arguments -
running any wait continuation with `err = undefined` is exactly the
argument-free run, so the `if (err)` branches (which would call the
`beginTransaction` callback instead of the commit/rollback callback) are
dead code; the gate proceeds synchronously exactly when the lock counter is
zero, otherwise the continuation is parked and a firing timer with the
counter still nonzero changes nothing; and in every execution no
`if (err)` branch is ever taken. -/
theorem c10_wait_err_branch_unreachable :
    (∀ (c : WaitCont) (s : St), runWaitCont c none s = runWaitContNone c s) ∧
    (∀ (c : WaitCont) (s : St), s.lock = 0 →
      waitGate c s = runWaitContNone c s) ∧
    (∀ (c : WaitCont) (s : St), s.lock ≠ 0 →
      waitGate c s = { s with waits := s.waits ++ [c] }) ∧
    (∀ (i : Nat) (s : St), s.lock ≠ 0 → fireWait i s = s) ∧
    (∀ (acts : List Act) (g : Nat),
      Ev.ifErrTaken g ∉ (reach acts).trace) := by
  refine ⟨?_, ?_, ?_, ?_, ?_⟩
  · intro c s
    cases c <;> rfl
  · intro c s h
    rw [waitGate, if_pos h]
  · intro c s h
    rw [waitGate, if_neg h]
  · intro i s h
    rw [fireWait, if_neg h]
  · intro acts g hm
    exact ((inv_reach acts).1.tr _ hm).2.1 g rfl

/-- C10 witness: the BEGIN continuation run with `undefined` is the
argument-free run, and with a locking operation in flight (lock counter
one) a firing wait timer leaves the state unchanged. -/
theorem c10_witness :
    runWaitCont (.wBegin 0) none init = runWaitContNone (.wBegin 0) init ∧
    (reach [Act.callOp true true]).lock ≠ 0 ∧
    fireWait 0 (reach [Act.callOp true true]) =
      reach [Act.callOp true true] := by
  refine ⟨c10_wait_err_branch_unreachable.1 (.wBegin 0) init, by decide, ?_⟩
  exact c10_wait_err_branch_unreachable.2.2.2.1 0
    (reach [Act.callOp true true]) (by decide)

end STx
